import Mathlib

/-!
Verification of the `json-parser-rs` two-stage JSON parser.

Shallow embedding of the Rust crate's core pipeline:
`src/tokenize.rs` (lexical tokenizer), `src/parse.rs` (recursive-descent
token parser) and `src/lib.rs` (entry point `parse` and the unified
error/value types).

Modelling conventions:
* Rust's `Peekable` character / token iterators become explicit `List`
  arguments; `next` is pattern matching on the head, `peek` inspects the
  head without consuming it.  Each lexing helper returns the produced item
  together with the remaining list.
* Rust panics (`Option::unwrap` on `None`, `todo!()`) are an explicit
  outcome (`PResult.panic` / `ParseOutcome.panic`), never silently dropped.
* The parser's recursion (`parse_tokens` ↔ `parse_array` ↔ `parse_objects`)
  is general recursion in Rust; here it is made structural on an explicit
  `fuel : Nat`, with `none` meaning "fuel exhausted".  `parse_fuel_total`
  proves the fuel budget used by the entry point always suffices, so the
  embedding is total in the same sense as the Rust code (modulo panics).
* `f64` values are modelled exactly as `mantissa × 10 ^ exponent` pairs
  (`JNum`): every numeric literal the lexer accepts denotes such a pair
  exactly, and no claim compares numbers produced by distinct literals, so
  IEEE-754 rounding never has to be modelled.
* `HashMap<String, Value>` is modelled as an association list with unique
  keys; `HashMap::insert`'s replace-or-add behaviour is `insertKV`.
-/

namespace JsonRs

/-- Exact model of an `f64` numeric result: the value `mantissa × 10 ^ exponent`.
No rounding is modelled; see the header comment. -/
structure JNum where
  mantissa : Int
  exponent : Int
deriving DecidableEq

/-- `Token` from `src/tokenize.rs` (same constructor names as the Rust enum). -/
inductive Token where
  /-- `{` -/
  | LeftBrace
  /-- `}` -/
  | RightBrace
  /-- `[` -/
  | LeftBracket
  /-- `]` -/
  | RightBracket
  /-- `,` -/
  | Comma
  /-- `:` -/
  | Colon
  /-- `null` -/
  | Null
  /-- `false` -/
  | False
  /-- `true` -/
  | True
  /-- Any number literal -/
  | Number (n : JNum)
  /-- String payload, escapes still unresolved -/
  | String (s : String)
deriving DecidableEq

/-- `TokenizeError` from `src/tokenize.rs`.  `ParseNumberError` carries a
`std::num::ParseFloatError` in Rust; that type has a single observable value
("invalid float literal"), so it is modelled as a plain constructor. -/
inductive TokenizeError where
  | UnfinishedLiteralValue
  | InvalidNumber (msg : String)
  | ParseNumberError
  | UnclosedQuotes
  | CharNotRecognized (c : Char)
  | UnexpectedEof
deriving DecidableEq

/-- `TokenParseError` from `src/parse.rs`. -/
inductive TokenParseError where
  | UnfinishedEscape
  | InvalidHexValue
  | InvalidCodePointValue
  | ExpectedComma
  | ExpectedProperty
  | ExpectedColon
deriving DecidableEq

/-- `Value` from `src/lib.rs`.  `Object`'s `HashMap<String, Value>` is an
association list with unique keys (order irrelevant to every claim below,
which only builds objects through `insertKV`). -/
inductive Value where
  | Null
  | Boolean (b : Bool)
  | String (s : String)
  | Number (n : JNum)
  | Array (elems : List Value)
  | Object (entries : List (String × Value))

/-- `ParseError` from `src/lib.rs`: the unified error, tagged by stage. -/
inductive ParseError where
  | TokenizeError (e : TokenizeError)
  | ParseError (e : TokenParseError)

/-! ## Models of the Rust standard-library pieces the source calls -/

/-- Rust `char::is_ascii_whitespace`: space, horizontal tab, newline,
carriage return, form feed. -/
def isAsciiWs (c : Char) : Bool :=
  c = ' ' || c = '\t' || c = '\n' || c = '\r' || c = Char.ofNat 0xC

/-- Rust `char::to_digit(16)`: `0-9`, `a-f`, `A-F` (by their ASCII
codes: 48-57, 97-102, 65-70). -/
def hexDigit? (c : Char) : Option Nat :=
  if 48 ≤ c.toNat ∧ c.toNat ≤ 57 then some (c.toNat - 48)
  else if 97 ≤ c.toNat ∧ c.toNat ≤ 102 then some (c.toNat - 97 + 10)
  else if 65 ≤ c.toNat ∧ c.toNat ≤ 70 then some (c.toNat - 65 + 10)
  else none

/-- Rust `char::from_u32`: defined exactly on Unicode scalar values
(everything below `0x110000` except the surrogate range). -/
def charFromU32 (n : Nat) : Option Char :=
  if n < 0xD800 ∨ (0xE000 ≤ n ∧ n < 0x110000) then some (Char.ofNat n) else none

/-- Numeric value of a decimal digit string, most significant digit first. -/
def digitsVal (l : List Char) : Nat :=
  l.foldl (fun n c => 10 * n + (c.toNat - '0'.toNat)) 0

/-- Longest ASCII-digit prefix and the remainder (helper for `parse_f64`). -/
def takeDigits : List Char → List Char × List Char
  | [] => ([], [])
  | c :: rest =>
    if c.isDigit then
      let p := takeDigits rest
      (c :: p.1, p.2)
    else ([], c :: rest)

/-- Exponent suffix of Rust `str::parse::<f64>`: either nothing, or
`e`/`E`, an optional sign, and a mandatory nonempty digit run that must
exhaust the input.  `mant` and `fplen` carry the mantissa digits and the
fraction length already read. -/
def parseExpPart (mant : Nat) (fplen : Nat) : List Char → Option JNum
  | [] => some ⟨(mant : Int), -(fplen : Int)⟩
  | c :: r =>
    if c = 'e' ∨ c = 'E' then
      match r with
      | s :: r1 =>
        if s = '-' then
          let p := takeDigits r1
          if p.1.isEmpty ∨ ¬p.2.isEmpty then none
          else some ⟨(mant : Int), -((digitsVal p.1 : Nat) : Int) - (fplen : Int)⟩
        else if s = '+' then
          let p := takeDigits r1
          if p.1.isEmpty ∨ ¬p.2.isEmpty then none
          else some ⟨(mant : Int), ((digitsVal p.1 : Nat) : Int) - (fplen : Int)⟩
        else
          let p := takeDigits (s :: r1)
          if p.1.isEmpty ∨ ¬p.2.isEmpty then none
          else some ⟨(mant : Int), ((digitsVal p.1 : Nat) : Int) - (fplen : Int)⟩
      -- no exponent digits at all: `takeDigits []` is empty, hence failure
      | [] => none
    else none

/-- Unsigned part of Rust `str::parse::<f64>`'s grammar:
`Digits '.'? Digits? Exp?` or `'.' Digits Exp?`. -/
def parseDec (s : List Char) : Option JNum :=
  let ip := takeDigits s
  match ip.2 with
  | c :: r2 =>
    if c = '.' then
      let fp := takeDigits r2
      if ip.1.isEmpty ∧ fp.1.isEmpty then none
      else parseExpPart (digitsVal (ip.1 ++ fp.1)) fp.1.length fp.2
    else
      if ip.1.isEmpty then none
      else parseExpPart (digitsVal ip.1) 0 (c :: r2)
  | [] =>
    if ip.1.isEmpty then none
    else parseExpPart (digitsVal ip.1) 0 []

/-- Model of Rust `str::parse::<f64>` on the literals the lexer accumulates:
optional sign then the decimal grammar, the whole string consumed.  The
`inf`/`infinity`/`nan` alternatives of the real grammar are omitted: the
lexer only ever accumulates characters from `0-9 e E + - .`, so those
branches are unreachable.  The result is the literal's exact value as a
`JNum` (see the header comment on rounding). -/
def parse_f64 : List Char → Option JNum
  | [] => parseDec []
  | c :: r =>
    if c = '-' then (parseDec r).map (fun q => ⟨-q.mantissa, q.exponent⟩)
    else if c = '+' then parseDec r
    else parseDec (c :: r)

/-! ## Tokenizer (`src/tokenize.rs`) -/

/-- `is_number` from `src/tokenize.rs`. -/
def is_number (ch : Char) : Bool :=
  ch = '-' || ch.isDigit

/-- The shared loop body of `tokenize_true` / `tokenize_false` /
`tokenize_null`: peek-compare-advance over the expected suffix; any
mismatch or premature end is `UnfinishedLiteralValue`. -/
def matchChars : List Char → List Char → Except TokenizeError (List Char)
  | [], chars => .ok chars
  | e :: es, chars =>
    match chars with
    | c :: rest => if c = e then matchChars es rest else .error .UnfinishedLiteralValue
    | [] => .error .UnfinishedLiteralValue

/-- `tokenize_true` from `src/tokenize.rs`. -/
def tokenize_true (chars : List Char) : Except TokenizeError (Token × List Char) :=
  (matchChars ['r', 'u', 'e'] chars).map (fun rest => (Token.True, rest))

/-- `tokenize_false` from `src/tokenize.rs`. -/
def tokenize_false (chars : List Char) : Except TokenizeError (Token × List Char) :=
  (matchChars ['a', 'l', 's', 'e'] chars).map (fun rest => (Token.False, rest))

/-- `tokenize_null` from `src/tokenize.rs`. -/
def tokenize_null (chars : List Char) : Except TokenizeError (Token × List Char) :=
  (matchChars ['u', 'l', 'l'] chars).map (fun rest => (Token.Null, rest))

/-- The `while let` loop of `tokenize_string`: `acc` is the payload built so
far, `esc` the `is_escaping` flag.  An unescaped `"` closes the string (and
is not pushed); `\` toggles the flag and is pushed; end of input before the
closing quote is `UnclosedQuotes`. -/
def stringLoop (acc : List Char) (esc : Bool) : List Char → Except TokenizeError (List Char × List Char)
  | [] => .error .UnclosedQuotes
  | c :: rest =>
    if c = '"' ∧ esc = false then .ok (acc, rest)
    else if c = '\\' then stringLoop (acc ++ [c]) (!esc) rest
    else stringLoop (acc ++ [c]) false rest

/-- `tokenize_string` from `src/tokenize.rs`. -/
def tokenize_string (chars : List Char) : Except TokenizeError (Token × List Char) :=
  match stringLoop [] false chars with
  | .error e => .error e
  | .ok (payload, rest) => .ok (.String (String.mk payload), rest)

/-- The `while let Some(&c) = chars.peek()` loop of `tokenize_float`.
`acc` is `unparsed_num` so far.  A digit is consumed; an exponent marker
(when none has been seen) consumes an optional sign and then demands a
digit next, else `InvalidNumber`; a first `.` before any exponent starts
the fraction; anything else ends the number.  The `chars.peek().is_some()`
conjunct of the Rust `is_exponenta` guard is evaluated while the marker
itself is still the peeked character, so it is always true and does not
appear here. -/
def floatLoop (acc : List Char) (chars : List Char) (hasDec hasExp : Bool) :
    Except TokenizeError (List Char × List Char) :=
  match chars with
  | [] => .ok (acc, [])
  | c :: rest =>
    if c.isDigit then floatLoop (acc ++ [c]) rest hasDec hasExp
    else if hasExp = false ∧ (c = 'e' ∨ c = 'E') then
      match rest with
      | [] => .error (.InvalidNumber "Invalid number provided.")
      | c2 :: rest2 =>
        if c2 = '+' ∨ c2 = '-' then
          match rest2 with
          | [] => .error (.InvalidNumber "Invalid number provided.")
          | c3 :: rest3 =>
            if c3.isDigit then floatLoop (acc ++ [c, c2]) (c3 :: rest3) hasDec true
            else .error (.InvalidNumber "Invalid number provided.")
        else if c2.isDigit then floatLoop (acc ++ [c]) (c2 :: rest2) hasDec true
        else .error (.InvalidNumber "Invalid number provided.")
    else if c = '.' ∧ hasDec = false ∧ hasExp = false then
      floatLoop (acc ++ ['.']) rest true hasExp
    else .ok (acc, c :: rest)

/-- The leading-zero checks at the top of `tokenize_float`, on the
already-consumed first character `ch`: after a `-`, a following `0` is
consumed and must not be followed by another digit; a leading `0` must not
be followed by a digit.  Returns `unparsed_num` so far and the remaining
characters. -/
def float_start (chars : List Char) (ch : Char) : Except TokenizeError (List Char × List Char) :=
  if ch = '-' then
    match chars with
    | c0 :: rest =>
      if c0 = '0' then
        if rest.head?.any Char.isDigit then .error (.InvalidNumber "Invalid number provided.")
        else .ok ([ch, '0'], rest)
      else .ok ([ch], c0 :: rest)
    | [] => .ok ([ch], [])
  else if ch = '0' then
    if chars.head?.any Char.isDigit then .error (.InvalidNumber "Invalid number provided.")
    else .ok ([ch], chars)
  else .ok ([ch], chars)

/-- `tokenize_float` from `src/tokenize.rs`: the leading-zero checks on the
already-consumed first character, then the accumulation loop, then the
final `str::parse::<f64>`. -/
def tokenize_float (chars : List Char) (ch : Char) : Except TokenizeError (Token × List Char) :=
  match float_start chars ch with
  | .error e => .error e
  | .ok (acc0, rest0) =>
    match floatLoop acc0 rest0 false false with
    | .error e => .error e
    | .ok (acc, rest) =>
      match parse_f64 acc with
      | some q => .ok (.Number q, rest)
      | none => .error .ParseNumberError

/-- `make_token` from `src/tokenize.rs`: skip ASCII whitespace (end of
input during the skip is `UnexpectedEof`), then dispatch on the current
character in the same order as the Rust `match`. -/
def make_token : List Char → Char → Except TokenizeError (Token × List Char)
  | chars, ch =>
    if isAsciiWs ch then
      match chars with
      | [] => .error .UnexpectedEof
      | c :: rest => make_token rest c
    else if is_number ch then tokenize_float chars ch
    else if ch = '"' then tokenize_string chars
    else if ch = '[' then .ok (.LeftBracket, chars)
    else if ch = ']' then .ok (.RightBracket, chars)
    else if ch = '{' then .ok (.LeftBrace, chars)
    else if ch = '}' then .ok (.RightBrace, chars)
    else if ch = ',' then .ok (.Comma, chars)
    else if ch = ':' then .ok (.Colon, chars)
    else if ch = 't' then tokenize_true chars
    else if ch = 'f' then tokenize_false chars
    else if ch = 'n' then tokenize_null chars
    else .error (.CharNotRecognized ch)

theorem matchChars_length (es : List Char) (chars : List Char) (r : List Char)
    (h : matchChars es chars = .ok r) : r.length ≤ chars.length := by
  induction es generalizing chars with
  | nil =>
    simp only [matchChars] at h
    cases h
    exact le_refl _
  | cons e es ih =>
    match chars with
    | [] => simp [matchChars] at h
    | c :: rest =>
      simp only [matchChars] at h
      split at h
      · have := ih rest h
        simp only [List.length_cons]
        omega
      · exact absurd h (by simp)

theorem stringLoop_length (chars : List Char) : ∀ (acc : List Char) (esc : Bool)
    (p r : List Char), stringLoop acc esc chars = .ok (p, r) → r.length ≤ chars.length := by
  induction chars with
  | nil => intro acc esc p r h; simp [stringLoop] at h
  | cons c rest ih =>
    intro acc esc p r h
    simp only [stringLoop] at h
    split at h
    · cases h
      simp
    · split at h
      · have := ih _ _ _ _ h
        simp only [List.length_cons]
        omega
      · have := ih _ _ _ _ h
        simp only [List.length_cons]
        omega

theorem floatLoop_length (acc chars : List Char) (hd he : Bool) (p r : List Char)
    (h : floatLoop acc chars hd he = .ok (p, r)) : r.length ≤ chars.length := by
  induction acc, chars, hd, he using floatLoop.induct with
  | case1 acc hd he =>
    rw [floatLoop.eq_def] at h
    cases h
    exact le_refl _
  | case2 acc hd he c rest hdig ih =>
    rw [floatLoop.eq_def] at h
    simp only [if_pos hdig] at h
    have := ih h
    simp only [List.length_cons]
    omega
  | case3 acc hd he c hdig hexp =>
    rw [floatLoop.eq_def] at h
    simp only [if_neg hdig, if_pos hexp] at h
    simp at h
  | case4 acc hd he c hdig hexp c2 hsign =>
    rw [floatLoop.eq_def] at h
    simp only [if_neg hdig, if_pos hexp, if_pos hsign] at h
    simp at h
  | case5 acc hd he c hdig hexp c2 hsign c3 rest3 hdig3 ih =>
    rw [floatLoop.eq_def] at h
    simp only [if_neg hdig, if_pos hexp, if_pos hsign, if_pos hdig3] at h
    have := ih h
    simp only [List.length_cons] at this ⊢
    omega
  | case6 acc hd he c hdig hexp c2 hsign c3 rest3 hdig3 =>
    rw [floatLoop.eq_def] at h
    simp only [if_neg hdig, if_pos hexp, if_pos hsign, if_neg hdig3] at h
    simp at h
  | case7 acc hd he c hdig hexp c2 rest2 hsign hdig2 ih =>
    rw [floatLoop.eq_def] at h
    simp only [if_neg hdig, if_pos hexp, if_neg hsign, if_pos hdig2] at h
    have := ih h
    simp only [List.length_cons] at this ⊢
    omega
  | case8 acc hd he c hdig hexp c2 rest2 hsign hdig2 =>
    rw [floatLoop.eq_def] at h
    simp only [if_neg hdig, if_pos hexp, if_neg hsign, if_neg hdig2] at h
    simp at h
  | case9 acc hd he c rest hdig hexp hdec ih =>
    rw [floatLoop.eq_def] at h
    simp only [if_neg hdig, if_neg hexp, if_pos hdec] at h
    have := ih h
    simp only [List.length_cons]
    omega
  | case10 acc hd he c rest hdig hexp hdec =>
    rw [floatLoop.eq_def] at h
    simp only [if_neg hdig, if_neg hexp, if_neg hdec] at h
    cases h
    exact le_refl _

theorem float_start_length (chars : List Char) (ch : Char) (acc0 rest0 : List Char)
    (h : float_start chars ch = .ok (acc0, rest0)) : rest0.length ≤ chars.length := by
  unfold float_start at h
  split at h
  · split at h
    · split at h
      · split at h
        · exact absurd h (by simp)
        · cases h; simp
      · cases h; exact le_refl _
    · cases h; exact le_refl _
  · split at h
    · split at h
      · exact absurd h (by simp)
      · cases h; exact le_refl _
    · cases h; exact le_refl _

theorem tokenize_float_length (chars : List Char) (ch : Char) (t : Token) (r : List Char)
    (h : tokenize_float chars ch = .ok (t, r)) : r.length ≤ chars.length := by
  unfold tokenize_float at h
  split at h
  · exact absurd h (by simp)
  case _ acc0 rest0 hs =>
    split at h
    · exact absurd h (by simp)
    case _ acc rest hl =>
      split at h
      · cases h
        exact le_trans (floatLoop_length _ _ _ _ _ _ hl) (float_start_length _ _ _ _ hs)
      · exact absurd h (by simp)

/-- Unfolding equation for `make_token` (the definition's top-level pattern
is a catch-all, so this is definitional). -/
theorem make_token_eq (chars : List Char) (ch : Char) :
    make_token chars ch =
      (if isAsciiWs ch then
        match chars with
        | [] => .error .UnexpectedEof
        | c :: rest => make_token rest c
      else if is_number ch then tokenize_float chars ch
      else if ch = '"' then tokenize_string chars
      else if ch = '[' then .ok (.LeftBracket, chars)
      else if ch = ']' then .ok (.RightBracket, chars)
      else if ch = '{' then .ok (.LeftBrace, chars)
      else if ch = '}' then .ok (.RightBrace, chars)
      else if ch = ',' then .ok (.Comma, chars)
      else if ch = ':' then .ok (.Colon, chars)
      else if ch = 't' then tokenize_true chars
      else if ch = 'f' then tokenize_false chars
      else if ch = 'n' then tokenize_null chars
      else .error (.CharNotRecognized ch)) := by
  cases chars <;> rfl

set_option maxHeartbeats 4000000 in
theorem make_token_dispatch_length (chars : List Char) (ch : Char)
    (hws : isAsciiWs ch = false) (t : Token) (r : List Char)
    (h : make_token chars ch = .ok (t, r)) : r.length ≤ chars.length := by
  rw [make_token_eq] at h
  rw [hws] at h
  simp only [Bool.false_eq_true, if_false] at h
  split at h
  · exact tokenize_float_length _ _ _ _ h
  · split at h
    · unfold tokenize_string at h
      split at h
      · exact absurd h (by simp)
      case _ payload rest hsl =>
        cases h
        exact stringLoop_length _ _ _ _ _ hsl
    · split at h
      · cases h; exact le_refl _
      · split at h
        · cases h; exact le_refl _
        · split at h
          · cases h; exact le_refl _
          · split at h
            · cases h; exact le_refl _
            · split at h
              · cases h; exact le_refl _
              · split at h
                · cases h; exact le_refl _
                · split at h
                  · unfold tokenize_true at h
                    match h2 : matchChars ['r', 'u', 'e'] chars with
                    | .error e => rw [h2] at h; exact absurd h (by simp [Except.map])
                    | .ok rest =>
                      rw [h2] at h
                      simp only [Except.map, Except.ok.injEq, Prod.mk.injEq] at h
                      obtain ⟨h1, h3⟩ := h
                      subst h3
                      exact matchChars_length _ _ _ h2
                  · split at h
                    · unfold tokenize_false at h
                      match h2 : matchChars ['a', 'l', 's', 'e'] chars with
                      | .error e => rw [h2] at h; exact absurd h (by simp [Except.map])
                      | .ok rest =>
                        rw [h2] at h
                        simp only [Except.map, Except.ok.injEq, Prod.mk.injEq] at h
                        obtain ⟨h1, h3⟩ := h
                        subst h3
                        exact matchChars_length _ _ _ h2
                    · split at h
                      · unfold tokenize_null at h
                        match h2 : matchChars ['u', 'l', 'l'] chars with
                        | .error e => rw [h2] at h; exact absurd h (by simp [Except.map])
                        | .ok rest =>
                          rw [h2] at h
                          simp only [Except.map, Except.ok.injEq, Prod.mk.injEq] at h
                          obtain ⟨h1, h3⟩ := h
                          subst h3
                          exact matchChars_length _ _ _ h2
                      · exact absurd h (by simp)

theorem make_token_length (chars : List Char) (ch : Char) (t : Token) (r : List Char)
    (h : make_token chars ch = .ok (t, r)) : r.length ≤ chars.length := by
  induction chars generalizing ch with
  | nil =>
    by_cases hws : isAsciiWs ch
    · rw [make_token_eq, if_pos hws] at h
      exact absurd h (by simp)
    · exact make_token_dispatch_length _ _ (by simpa using hws) _ _ h
  | cons c2 r2 ih =>
    by_cases hws : isAsciiWs ch
    · rw [make_token_eq, if_pos hws] at h
      exact le_trans (ih c2 h) (by simp)
    · exact make_token_dispatch_length _ _ (by simpa using hws) _ _ h

/-- The `while let Some(c) = chars.next()` loop of `tokenize`: build one
token at a time until the characters are exhausted. -/
def tokenizeLoop (l : List Char) : Except TokenizeError (List Token) :=
  match l with
  | [] => .ok []
  | c :: rest =>
    match hmt : make_token rest c with
    | .error e => .error e
    | .ok (t, rest2) =>
      match tokenizeLoop rest2 with
      | .error e => .error e
      | .ok ts => .ok (t :: ts)
termination_by l.length
decreasing_by
  have := make_token_length rest c t rest2 hmt
  simp only [List.length_cons]
  omega

/-- `tokenize` from `src/tokenize.rs`. -/
def tokenize (input : String) : Except TokenizeError (List Token) :=
  tokenizeLoop input.data

/-! ## Parser (`src/parse.rs`) -/

/-- The `while let Some(next_char) = chars.next()` loop of
`unescape_string`: `acc` is the output built so far, `esc` the
`is_escaping` flag.  While armed, the named single-character escapes are
mapped (`\u{8}` and `\u{12}` written as in the Rust source — note Rust's
`\u{...}` takes hexadecimal digits); `u` reads exactly four following
characters, one at a time, each `chars.next()` failing with
`UnfinishedEscape` when the input is exhausted and `to_digit(16)` failing
with `InvalidHexValue`, then `char::from_u32` failing with
`InvalidCodePointValue`; any other armed character is copied through.  The
Rust `for i in 0..4` loop is unrolled into a four-deep match here so that
the recursion stays structural; `shortHexErr` reproduces its error choice
when fewer than four characters remain (the first non-hex character, if
any, is reported before the exhaustion). -/
def shortHexErr (l : List Char) : TokenParseError :=
  if l.all (fun c => (hexDigit? c).isSome) then .UnfinishedEscape else .InvalidHexValue

def unescapeLoop (acc : List Char) (esc : Bool) : List Char → Except TokenParseError (List Char)
  | [] => .ok acc
  | c :: rest =>
    if esc then
      if c = '"' then unescapeLoop (acc ++ ['"']) false rest
      else if c = '\\' then unescapeLoop (acc ++ ['\\']) false rest
      else if c = 'b' then unescapeLoop (acc ++ [Char.ofNat 0x8]) false rest
      else if c = 'f' then unescapeLoop (acc ++ [Char.ofNat 0x12]) false rest
      else if c = 'n' then unescapeLoop (acc ++ ['\n']) false rest
      else if c = 'r' then unescapeLoop (acc ++ ['\r']) false rest
      else if c = 't' then unescapeLoop (acc ++ ['\t']) false rest
      else if c = 'u' then
        match rest with
        | c1 :: c2 :: c3 :: c4 :: rest2 =>
          match hexDigit? c1, hexDigit? c2, hexDigit? c3, hexDigit? c4 with
          | some d1, some d2, some d3, some d4 =>
            match charFromU32 (4096 * d1 + 256 * d2 + 16 * d3 + d4) with
            | some uc => unescapeLoop (acc ++ [uc]) false rest2
            | none => .error .InvalidCodePointValue
          | _, _, _, _ => .error .InvalidHexValue
        | short => .error (shortHexErr short)
      else unescapeLoop (acc ++ [c]) false rest
    else if c = '\\' then unescapeLoop acc true rest
    else unescapeLoop (acc ++ [c]) false rest

/-- `unescape_string` from `src/parse.rs`. -/
def unescape_string (input : String) : Except TokenParseError String :=
  (unescapeLoop [] false input.data).map String.mk

/-- `parse_string` from `src/parse.rs`. -/
def parse_string (input : String) : Except TokenParseError Value :=
  (unescape_string input).map Value.String

/-- `HashMap::insert`: replace the value under an existing key, otherwise
add the pair. -/
def insertKV : List (String × Value) → String → Value → List (String × Value)
  | [], k, v => [(k, v)]
  | (k2, v2) :: rest, k, v =>
    if k2 = k then (k, v) :: rest else (k2, v2) :: insertKV rest k v

/-- Outcome of a parser call on a token list: a Rust panic
(`Option::unwrap` on `None`, or the `todo!()` arm of `parse_tokens`), an
`Err(TokenParseError)`, or `Ok` together with the tokens left unconsumed
in the `Peekable` iterator. -/
inductive PResult where
  | panic
  | fail (e : TokenParseError)
  | ok (v : Value) (rest : List Token)

mutual

/-- `parse_tokens` from `src/parse.rs`.  `tokens.next().unwrap()` on an
empty stream panics; the `_ => todo!()` arm (stray punctuation at a value
position) panics. -/
def parse_tokens (fuel : Nat) (tokens : List Token) : Option PResult :=
  match fuel with
  | 0 => none
  | fuel + 1 =>
    match tokens with
    | [] => some .panic
    | t :: rest =>
      match t with
      | .Null => some (.ok .Null rest)
      | .True => some (.ok (.Boolean true) rest)
      | .False => some (.ok (.Boolean false) rest)
      | .Number n => some (.ok (.Number n) rest)
      | .String s =>
        match parse_string s with
        | .ok v => some (.ok v rest)
        | .error e => some (.fail e)
      | .LeftBracket => parse_array_loop fuel [] rest
      | .LeftBrace => parse_objects_loop fuel [] rest
      | _ => some .panic

/-- The `loop` of `parse_array` from `src/parse.rs`, with the accumulated
elements made explicit.  `tokens.peek().unwrap()` on an empty stream
panics; a peeked `]` terminates (consumed after the loop); otherwise the
iteration body is `parse_array_step`. -/
def parse_array_loop (fuel : Nat) (acc : List Value) (tokens : List Token) : Option PResult :=
  match fuel with
  | 0 => none
  | fuel + 1 =>
    match tokens with
    | [] => some .panic
    | .RightBracket :: rest => some (.ok (.Array acc) rest)
    | _ => parse_array_step fuel acc tokens

/-- One iteration body of `parse_array`'s `loop` after the `]` peek: parse
an element, then `tokens.next().unwrap()` (panic on an empty stream) must
be `,` (continue) or `]` (return the array); anything else is
`ExpectedComma`. -/
def parse_array_step (fuel : Nat) (acc : List Value) (tokens : List Token) : Option PResult :=
  match parse_tokens fuel tokens with
  | none => none
  | some .panic => some .panic
  | some (.fail e) => some (.fail e)
  | some (.ok v rest2) =>
    match rest2 with
    | [] => some .panic
    | .Comma :: rest3 => parse_array_loop fuel (acc ++ [v]) rest3
    | .RightBracket :: rest3 => some (.ok (.Array (acc ++ [v])) rest3)
    | _ :: _ => some (.fail .ExpectedComma)

/-- The `loop` of `parse_objects` from `src/parse.rs`, with the
accumulated map made explicit.  A peeked `}` terminates (consumed after
the loop); otherwise `tokens.next()` must be a `String` (else
`ExpectedProperty`, also when the stream is empty), then a `:` (else
`ExpectedColon`); the key is unescaped and the iteration body is
`parse_objects_step`. -/
def parse_objects_loop (fuel : Nat) (acc : List (String × Value)) (tokens : List Token) :
    Option PResult :=
  match fuel with
  | 0 => none
  | fuel + 1 =>
    match tokens with
    | .RightBrace :: rest => some (.ok (.Object acc) rest)
    | .String s :: rest =>
      match rest with
      | .Colon :: rest2 =>
        match unescape_string s with
        | .error e => some (.fail e)
        | .ok key => parse_objects_step fuel acc key rest2
      | _ => some (.fail .ExpectedColon)
    | _ => some (.fail .ExpectedProperty)

/-- One iteration body of `parse_objects`'s `loop` after key and `:`:
parse the value, insert the pair, then peek: `,` is consumed and the loop
continues, `}` terminates, anything else (including an empty stream) is
`ExpectedComma`. -/
def parse_objects_step (fuel : Nat) (acc : List (String × Value)) (key : String)
    (tokens : List Token) : Option PResult :=
  match parse_tokens fuel tokens with
  | none => none
  | some .panic => some .panic
  | some (.fail e) => some (.fail e)
  | some (.ok v rest3) =>
    match rest3 with
    | .Comma :: rest4 => parse_objects_loop fuel (insertKV acc key v) rest4
    | .RightBrace :: rest4 => some (.ok (.Object (insertKV acc key v)) rest4)
    | _ => some (.fail .ExpectedComma)

end

/-- `parse_array` from `src/parse.rs` (its `loop`, starting from an empty
element vector). -/
def parse_array (fuel : Nat) (tokens : List Token) : Option PResult :=
  parse_array_loop fuel [] tokens

/-- `parse_objects` from `src/parse.rs` (its `loop`, starting from an
empty map). -/
def parse_objects (fuel : Nat) (tokens : List Token) : Option PResult :=
  parse_objects_loop fuel [] tokens

/-! ## Fuel adequacy: the parser's fuel is an artefact of the embedding -/

/-- A successful parse consumes at least one token (jointly for the
mutually recursive parser functions). -/
theorem parse_consumes (fuel : Nat) :
    (∀ toks v rest, parse_tokens fuel toks = some (.ok v rest) → rest.length < toks.length) ∧
    (∀ acc toks v rest, parse_array_loop fuel acc toks = some (.ok v rest) →
      rest.length < toks.length) ∧
    (∀ acc toks v rest, parse_array_step fuel acc toks = some (.ok v rest) →
      rest.length < toks.length) ∧
    (∀ acc toks v rest, parse_objects_loop fuel acc toks = some (.ok v rest) →
      rest.length < toks.length) ∧
    (∀ acc key toks v rest, parse_objects_step fuel acc key toks = some (.ok v rest) →
      rest.length < toks.length) := by
  induction fuel with
  | zero =>
    refine ⟨?_, ?_, ?_, ?_, ?_⟩
    · intro _ _ _ h; simp [parse_tokens] at h
    · intro _ _ _ _ h; simp [parse_array_loop] at h
    · intro _ _ _ _ h; simp [parse_array_step, parse_tokens] at h
    · intro _ _ _ _ h; simp [parse_objects_loop] at h
    · intro _ _ _ _ _ h; simp [parse_objects_step, parse_tokens] at h
  | succ fuel ih =>
    obtain ⟨ihT, ihAL, ihAS, ihOL, ihOS⟩ := ih
    have hT : ∀ toks v rest, parse_tokens (fuel + 1) toks = some (.ok v rest) →
        rest.length < toks.length := by
      intro toks v rest h
      match toks with
      | [] => simp [parse_tokens] at h
      | t :: r2 =>
        match t with
        | .Null | .True | .False | .Number _ =>
          simp only [parse_tokens, Option.some.injEq] at h
          cases h
          simp
        | .String s =>
          simp only [parse_tokens] at h
          split at h <;> simp only [Option.some.injEq] at h <;> cases h
          simp
        | .LeftBracket =>
          simp only [parse_tokens] at h
          have := ihAL [] r2 v rest h
          simp only [List.length_cons]
          omega
        | .LeftBrace =>
          simp only [parse_tokens] at h
          have := ihOL [] r2 v rest h
          simp only [List.length_cons]
          omega
        | .RightBrace | .RightBracket | .Comma | .Colon =>
          simp [parse_tokens] at h
    have hAL : ∀ acc toks v rest, parse_array_loop (fuel + 1) acc toks = some (.ok v rest) →
        rest.length < toks.length := by
      intro acc toks v rest h
      match toks with
      | [] => simp [parse_array_loop] at h
      | t :: r2 =>
        cases t
        case RightBracket =>
          simp only [parse_array_loop, Option.some.injEq] at h
          cases h
          simp
        all_goals
          simp only [parse_array_loop] at h
          exact ihAS _ _ _ _ h
    have hAS : ∀ acc toks v rest, parse_array_step (fuel + 1) acc toks = some (.ok v rest) →
        rest.length < toks.length := by
      intro acc toks v rest h
      simp only [parse_array_step] at h
      split at h
      · simp at h
      · simp at h
      · simp at h
      case _ v2 rest2 hpt =>
        have h1 := hT _ _ _ hpt
        split at h
        · simp at h
        case _ rest3 =>
          have h2 := hAL _ _ _ _ h
          simp only [List.length_cons] at h1 h2 ⊢
          omega
        case _ rest3 =>
          simp only [Option.some.injEq] at h
          cases h
          simp only [List.length_cons] at h1 ⊢
          omega
        · simp at h
    have hOL : ∀ acc toks v rest, parse_objects_loop (fuel + 1) acc toks = some (.ok v rest) →
        rest.length < toks.length := by
      intro acc toks v rest h
      match toks with
      | [] => simp [parse_objects_loop] at h
      | t :: r2 =>
        match t with
        | .RightBrace =>
          simp only [parse_objects_loop, Option.some.injEq] at h
          cases h
          simp
        | .String s =>
          match r2 with
          | [] => simp [parse_objects_loop] at h
          | t2 :: r3 =>
            match t2 with
            | .Colon =>
              simp only [parse_objects_loop] at h
              split at h
              · simp at h
              case _ key hkey =>
                have h1 := ihOS _ _ _ _ _ h
                simp only [List.length_cons] at h1 ⊢
                omega
            | .LeftBrace | .RightBrace | .LeftBracket | .RightBracket | .Comma | .Null
            | .False | .True | .Number _ | .String _ =>
              simp [parse_objects_loop] at h
        | .LeftBrace | .LeftBracket | .RightBracket | .Comma | .Colon | .Null
        | .False | .True | .Number _ =>
          simp [parse_objects_loop] at h
    have hOS : ∀ acc key toks v rest,
        parse_objects_step (fuel + 1) acc key toks = some (.ok v rest) →
        rest.length < toks.length := by
      intro acc key toks v rest h
      simp only [parse_objects_step] at h
      split at h
      · simp at h
      · simp at h
      · simp at h
      case _ v2 rest3 hpt =>
        have h1 := hT _ _ _ hpt
        split at h
        case _ rest4 =>
          have h2 := hOL _ _ _ _ h
          simp only [List.length_cons] at h1 h2 ⊢
          omega
        case _ rest4 =>
          simp only [Option.some.injEq] at h
          cases h
          simp only [List.length_cons] at h1 ⊢
          omega
        · simp at h
    exact ⟨hT, hAL, hAS, hOL, hOS⟩

/-- With enough fuel the parser never runs out: the fuel parameter is an
artefact of the embedding, not of the Rust code. -/
theorem parse_fuel_total (fuel : Nat) :
    (∀ toks, 2 * toks.length + 1 ≤ fuel → (parse_tokens fuel toks).isSome) ∧
    (∀ acc toks, 2 * toks.length + 2 ≤ fuel → (parse_array_loop fuel acc toks).isSome) ∧
    (∀ acc toks, 2 * toks.length + 1 ≤ fuel → (parse_array_step fuel acc toks).isSome) ∧
    (∀ acc toks, 2 * toks.length + 2 ≤ fuel → (parse_objects_loop fuel acc toks).isSome) ∧
    (∀ acc key toks, 2 * toks.length + 1 ≤ fuel →
      (parse_objects_step fuel acc key toks).isSome) := by
  induction fuel with
  | zero =>
    exact ⟨fun toks h => absurd h (by omega), fun acc toks h => absurd h (by omega),
      fun acc toks h => absurd h (by omega), fun acc toks h => absurd h (by omega),
      fun acc key toks h => absurd h (by omega)⟩
  | succ fuel ih =>
    obtain ⟨ihT, ihAL, ihAS, ihOL, ihOS⟩ := ih
    have hT : ∀ toks, 2 * toks.length + 1 ≤ fuel + 1 → (parse_tokens (fuel + 1) toks).isSome := by
      intro toks hf
      match toks with
      | [] => simp [parse_tokens]
      | t :: r2 =>
        match t with
        | .Null | .True | .False | .Number _ => simp [parse_tokens]
        | .String s =>
          simp only [parse_tokens]
          split <;> simp
        | .LeftBracket =>
          simp only [parse_tokens]
          exact ihAL [] r2 (by simp only [List.length_cons] at hf; omega)
        | .LeftBrace =>
          simp only [parse_tokens]
          exact ihOL [] r2 (by simp only [List.length_cons] at hf; omega)
        | .RightBrace | .RightBracket | .Comma | .Colon => simp [parse_tokens]
    have hAL : ∀ acc toks, 2 * toks.length + 2 ≤ fuel + 1 →
        (parse_array_loop (fuel + 1) acc toks).isSome := by
      intro acc toks hf
      match toks with
      | [] => simp [parse_array_loop]
      | t :: r2 =>
        have hstep : (parse_array_step fuel acc (t :: r2)).isSome :=
          ihAS acc (t :: r2) (by simp only [List.length_cons] at hf ⊢; omega)
        cases t <;> simp only [parse_array_loop] <;> first | simp | exact hstep
    have hAS : ∀ acc toks, 2 * toks.length + 1 ≤ fuel + 1 →
        (parse_array_step (fuel + 1) acc toks).isSome := by
      intro acc toks hf
      simp only [parse_array_step]
      match hpt : parse_tokens (fuel + 1) toks with
      | none =>
        have := hT toks hf
        rw [hpt] at this
        simp at this
      | some .panic => simp
      | some (.fail e) => simp
      | some (.ok v rest2) =>
        have hlen := (parse_consumes (fuel + 1)).1 _ _ _ hpt
        match rest2 with
        | [] => simp
        | t2 :: rest3 =>
          cases t2
          case Comma =>
            exact hAL _ _ (by simp only [List.length_cons] at hlen; omega)
          all_goals simp
    have hOL : ∀ acc toks, 2 * toks.length + 2 ≤ fuel + 1 →
        (parse_objects_loop (fuel + 1) acc toks).isSome := by
      intro acc toks hf
      match toks with
      | [] => simp [parse_objects_loop]
      | t :: r2 =>
        match t with
        | .RightBrace => simp [parse_objects_loop]
        | .String s =>
          match r2 with
          | [] => simp [parse_objects_loop]
          | t2 :: r3 =>
            match t2 with
            | .Colon =>
              simp only [parse_objects_loop]
              match unescape_string s with
              | .error e => simp
              | .ok key =>
                simp only
                exact ihOS acc key r3 (by simp only [List.length_cons] at hf ⊢; omega)
            | .LeftBrace | .RightBrace | .LeftBracket | .RightBracket | .Comma | .Null
            | .False | .True | .Number _ | .String _ =>
              simp [parse_objects_loop]
        | .LeftBrace | .LeftBracket | .RightBracket | .Comma | .Colon | .Null
        | .False | .True | .Number _ =>
          simp [parse_objects_loop]
    have hOS : ∀ acc key toks, 2 * toks.length + 1 ≤ fuel + 1 →
        (parse_objects_step (fuel + 1) acc key toks).isSome := by
      intro acc key toks hf
      simp only [parse_objects_step]
      match hpt : parse_tokens (fuel + 1) toks with
      | none =>
        have := hT toks hf
        rw [hpt] at this
        simp at this
      | some .panic => simp
      | some (.fail e) => simp
      | some (.ok v rest3) =>
        have hlen := (parse_consumes (fuel + 1)).1 _ _ _ hpt
        match rest3 with
        | [] => simp
        | t2 :: rest4 =>
          cases t2
          case Comma =>
            exact hOL _ _ (by simp only [List.length_cons] at hlen; omega)
          all_goals simp
    exact ⟨hT, hAL, hAS, hOL, hOS⟩

/-! ## Entry point (`src/lib.rs`) -/

/-- Outcome of the entry point on an input string: a Rust panic, an
`Err(ParseError)`, or the root `Value`. -/
inductive ParseOutcome where
  | panic
  | err (e : ParseError)
  | ok (v : Value)

/-- `parse` from `src/lib.rs`: `tokenize`, then `parse_tokens` on the
materialized token sequence (any tokens left after the root value are
dropped with the iterator), each failure wrapped into `ParseError` by the
`From` impls.  The fuel `2 * tokens.length + 1` always suffices
(`parse_fuel_total` below), so `none` never occurs. -/
def parse (input : String) : Option ParseOutcome :=
  match tokenize input with
  | .error e => some (.err (.TokenizeError e))
  | .ok tokens =>
    match parse_tokens (2 * tokens.length + 1) tokens with
    | none => none
    | some .panic => some .panic
    | some (.fail e) => some (.err (.ParseError e))
    | some (.ok v _) => some (.ok v)

/-- The embedding-level entry point never runs out of fuel: `parse` is
total up to panics, like the Rust function. -/
theorem parse_total (s : String) : (parse s).isSome := by
  unfold parse
  match tokenize s with
  | .error e => simp
  | .ok toks =>
    simp only
    have htot := (parse_fuel_total (2 * toks.length + 1)).1 toks (le_refl _)
    match hpt : parse_tokens (2 * toks.length + 1) toks with
    | none => rw [hpt] at htot; simp at htot
    | some .panic => simp
    | some (.fail e) => simp
    | some (.ok v r) => simp

/-! ## Claims -/

/-- C5: tokenizing `"00"` and `"-00"` fails with `InvalidNumber`, while
`"--123"` reaches the final float-parsing stage and fails there with
`ParseNumberError`, not during lexical validation. -/
theorem C5_number_rejections :
    tokenize "00" = .error (.InvalidNumber "Invalid number provided.") ∧
    tokenize "-00" = .error (.InvalidNumber "Invalid number provided.") ∧
    tokenize "--123" = .error .ParseNumberError := by
  refine ⟨?_, ?_, ?_⟩ <;>
    simp [tokenize, tokenizeLoop, make_token, isAsciiWs, is_number, tokenize_float, float_start,
      floatLoop, parse_f64, parseDec, parseExpPart, takeDigits, digitsVal]

/-! For C6, an arbitrary object document at the token level: `objBody`
renders any list of key/value entries as the body of an object document
(comma-separated pairs closed by the right brace), with the value token
lists abstract so that the quantification ranges over every object
document; `insertFold` is the repeated `HashMap::insert` the object loop
performs; `lookupKV` is `HashMap::get`. -/

/-- One entry of an object document: the raw (still escaped) key exactly
as it stands in the `String` token, its unescaped form, the token
rendering of the value, and the value those tokens parse to. -/
structure ObjEntry where
  raw : String
  key : String
  toks : List Token
  val : Value

/-- The tokens of an object document after the opening brace:
`"k1" : v1 , ... , "kn" : vn` closed by the right brace (for no entries,
just the right brace: the empty object). -/
def objBody : List ObjEntry → List Token
  | [] => [Token.RightBrace]
  | [e] => Token.String e.raw :: Token.Colon :: (e.toks ++ [Token.RightBrace])
  | e :: ps => Token.String e.raw :: Token.Colon :: (e.toks ++ Token.Comma :: objBody ps)

/-- Repeated `HashMap::insert` (`insertKV`) of the entries' unescaped
key / value pairs, in document order, starting from `acc`. -/
def insertFold (acc : List (String × Value)) (ps : List ObjEntry) : List (String × Value) :=
  ps.foldl (fun a e => insertKV a e.key e.val) acc

/-- `HashMap::get`: the value stored under a key, if any. -/
def lookupKV : List (String × Value) → String → Option Value
  | [], _ => none
  | (k2, v) :: rest, k => if k2 = k then some v else lookupKV rest k

/-- The value of the last entry whose unescaped key is `k`, if any:
entries further right in the document shadow earlier ones. -/
def lastOcc : List ObjEntry → String → Option Value
  | [], _ => none
  | e :: ps, k => (lastOcc ps k).or (if e.key = k then some e.val else none)

theorem lookupKV_insertKV (acc : List (String × Value)) (k : String) (v : Value) (k2 : String) :
    lookupKV (insertKV acc k v) k2 = if k = k2 then some v else lookupKV acc k2 := by
  induction acc with
  | nil => simp [insertKV, lookupKV]
  | cons p rest ih =>
    obtain ⟨k3, v3⟩ := p
    simp only [insertKV]
    by_cases h : k3 = k
    · simp only [if_pos h, lookupKV]
      by_cases h2 : k = k2
      · simp [h2]
      · have h3 : ¬ k3 = k2 := by rw [h]; exact h2
        simp [h2, h3]
    · simp only [if_neg h, lookupKV, ih]
      by_cases h2 : k3 = k2
      · have h3 : ¬ k = k2 := by
          intro e
          exact h (h2.trans e.symm)
        simp [h2, h3]
      · simp [h2]

theorem lookupKV_insertFold (ps : List ObjEntry) :
    ∀ (acc : List (String × Value)) (k : String),
    lookupKV (insertFold acc ps) k = (lastOcc ps k).or (lookupKV acc k) := by
  induction ps with
  | nil =>
    intro acc k
    simp [insertFold, lastOcc, Option.or]
  | cons e ps ih =>
    intro acc k
    have h1 : insertFold acc (e :: ps) = insertFold (insertKV acc e.key e.val) ps := rfl
    rw [h1, ih, lookupKV_insertKV]
    simp only [lastOcc]
    by_cases h : e.key = k
    · simp only [if_pos h]
      cases lastOcc ps k <;> simp [Option.or]
    · simp only [if_neg h]
      cases lastOcc ps k <;> simp [Option.or]

theorem find_append_or {α : Type} (p : α → Bool) (l1 l2 : List α) :
    (l1 ++ l2).find? p = (l1.find? p).or (l2.find? p) := by
  induction l1 with
  | nil => simp [Option.or]
  | cons a l1 ih =>
    cases hpa : p a <;> simp [List.find?, hpa, ih, Option.or]

/-- `lastOcc` is the first match in the reversed entry list — the last
occurrence of the key in the document. -/
theorem lastOcc_find (ps : List ObjEntry) (k : String) :
    lastOcc ps k = (ps.reverse.find? (fun e => e.key == k)).map (fun e => e.val) := by
  induction ps with
  | nil => simp [lastOcc]
  | cons e ps ih =>
    simp only [lastOcc, List.reverse_cons, find_append_or, ih]
    cases hf : ps.reverse.find? (fun e => e.key == k) with
    | none =>
      by_cases h : e.key = k
      · simp [List.find?, beq_iff_eq, h, Option.or]
      · have hb : (e.key == k) = false := beq_eq_false_iff_ne.mpr h
        simp [List.find?, hb, h, Option.or]
    | some x => simp [Option.or]

/-- The object loop on an arbitrary rendered document: it consumes the
document, performing one `HashMap::insert` per entry in document order. -/
theorem parse_objBody (ps : List ObjEntry) :
    ∀ (fuel : Nat) (acc : List (String × Value)) (rest : List Token),
    (∀ e ∈ ps, unescape_string e.raw = .ok e.key) →
    (∀ e ∈ ps, ∀ f r, 2 * e.toks.length + 1 ≤ f →
      parse_tokens f (e.toks ++ r) = some (.ok e.val r)) →
    2 * (objBody ps).length ≤ fuel →
    parse_objects_loop fuel acc (objBody ps ++ rest) =
      some (.ok (.Object (insertFold acc ps)) rest) := by
  induction ps with
  | nil =>
    intro fuel acc rest _ _ hfuel
    obtain ⟨f, rfl⟩ : ∃ f, fuel = f + 1 := ⟨fuel - 1, by simp [objBody] at hfuel; omega⟩
    simp [objBody, parse_objects_loop, insertFold]
  | cons e ps ih =>
    intro fuel acc rest hkey hval hfuel
    have hk := hkey e (by simp)
    cases ps with
    | nil =>
      have hlen : (objBody [e]).length = e.toks.length + 3 := by
        simp only [objBody, List.length_cons, List.length_append, List.length_nil]
        try omega
      obtain ⟨f, rfl⟩ : ∃ f, fuel = f + 1 := ⟨fuel - 1, by omega⟩
      have hv := hval e (by simp) f (Token.RightBrace :: rest) (by omega)
      simp only [objBody, List.cons_append, List.append_assoc, List.singleton_append]
      simp [parse_objects_loop, hk, parse_objects_step, hv, insertFold]
    | cons e2 ps2 =>
      have hlen : (objBody (e :: e2 :: ps2)).length =
          e.toks.length + 3 + (objBody (e2 :: ps2)).length := by
        simp only [objBody, List.length_cons, List.length_append, List.length_nil]
        try omega
      obtain ⟨f, rfl⟩ : ∃ f, fuel = f + 1 := ⟨fuel - 1, by omega⟩
      have hv := hval e (by simp) f (Token.Comma :: (objBody (e2 :: ps2) ++ rest)) (by omega)
      have hloop := ih f (insertKV acc e.key e.val) rest
        (fun x hx => hkey x (List.mem_cons_of_mem _ hx))
        (fun x hx => hval x (List.mem_cons_of_mem _ hx))
        (by omega)
      simp only [objBody, List.cons_append, List.append_assoc, List.cons_append]
      simp [parse_objects_loop, hk, parse_objects_step, hv, hloop, insertFold]

/-- C6: last-write-wins for duplicate object keys, universally.  For
every object document — arbitrary entries, so in particular any key
occurring any number of times, in any order — parsing succeeds and
yields the object built by repeated `HashMap::insert` (first conjunct);
looking any key up in that object gives the value of the key's last
occurrence in the document, the first match in the reversed entry list
(second conjunct); and concretely, parsing `'{"a":1,"a":2}'` through the
entry point maps `"a"` to `2` (third conjunct). -/
theorem C6_duplicate_key_last_wins :
    (∀ (ps : List ObjEntry) (fuel : Nat) (rest : List Token),
      (∀ e ∈ ps, unescape_string e.raw = .ok e.key) →
      (∀ e ∈ ps, ∀ f r, 2 * e.toks.length + 1 ≤ f →
        parse_tokens f (e.toks ++ r) = some (.ok e.val r)) →
      2 * (objBody ps).length + 1 ≤ fuel →
      parse_tokens fuel (Token.LeftBrace :: (objBody ps ++ rest)) =
        some (.ok (.Object (insertFold [] ps)) rest)) ∧
    (∀ (ps : List ObjEntry) (k : String),
      lookupKV (insertFold [] ps) k =
        (ps.reverse.find? (fun e => e.key == k)).map (fun e => e.val)) ∧
    parse "\x7b\"a\":1,\"a\":2\x7d" =
      some (.ok (.Object [("a", .Number ⟨2, 0⟩)])) := by
  refine ⟨?_, ?_, ?_⟩
  · intro ps fuel rest hkey hval hfuel
    obtain ⟨f, rfl⟩ : ∃ f, fuel = f + 1 := ⟨fuel - 1, by omega⟩
    simp only [parse_tokens]
    exact parse_objBody ps f [] rest hkey hval (by omega)
  · intro ps k
    rw [lookupKV_insertFold, lastOcc_find]
    cases ps.reverse.find? (fun e => e.key == k) <;> simp [lookupKV, Option.or]
  · simp [parse, tokenize, tokenizeLoop, make_token, isAsciiWs, is_number, tokenize_float,
      float_start, floatLoop, parse_f64, parseDec, parseExpPart, takeDigits, digitsVal,
      tokenize_string, stringLoop, parse_tokens, parse_objects_loop, parse_objects_step,
      parse_array_loop, parse_array_step, unescape_string, unescapeLoop, parse_string, insertKV,
      Except.map]

/-- Witness for C6: the two-entry document `{"a":1,"a":2}`, rendered as
tokens by `objBody`, parses to an object holding the single pair
`("a", 2)` — the last occurrence of the duplicated key `"a"` — and
looking `"a"` up in it gives `2`. -/
theorem C6_duplicate_key_last_wins_witness :
    parse_tokens 23
      (Token.LeftBrace ::
        (objBody [⟨"a", "a", [Token.Number ⟨1, 0⟩], Value.Number ⟨1, 0⟩⟩,
                  ⟨"a", "a", [Token.Number ⟨2, 0⟩], Value.Number ⟨2, 0⟩⟩] ++ [])) =
      some (.ok (.Object [("a", .Number ⟨2, 0⟩)]) []) ∧
    lookupKV [("a", .Number ⟨2, 0⟩)] "a" = some (.Number ⟨2, 0⟩) := by
  have hfold : insertFold []
      [⟨"a", "a", [Token.Number ⟨1, 0⟩], Value.Number ⟨1, 0⟩⟩,
       ⟨"a", "a", [Token.Number ⟨2, 0⟩], Value.Number ⟨2, 0⟩⟩] =
      [("a", Value.Number ⟨2, 0⟩)] := by
    simp [insertFold, insertKV]
  have h := C6_duplicate_key_last_wins.1
    [⟨"a", "a", [Token.Number ⟨1, 0⟩], Value.Number ⟨1, 0⟩⟩,
     ⟨"a", "a", [Token.Number ⟨2, 0⟩], Value.Number ⟨2, 0⟩⟩] 23 []
    (by
      intro e he
      simp only [List.mem_cons, List.not_mem_nil, or_false] at he
      rcases he with rfl | rfl <;> simp [unescape_string, unescapeLoop, Except.map])
    (by
      intro e he f r hf
      simp only [List.mem_cons, List.not_mem_nil, or_false] at he
      obtain ⟨f2, rfl⟩ : ∃ f2, f = f2 + 1 := ⟨f - 1, by rcases he with rfl | rfl <;> simp at hf <;> omega⟩
      rcases he with rfl | rfl <;> simp [parse_tokens])
    (by norm_num [objBody])
  rw [hfold] at h
  exact ⟨h, by simp [lookupKV]⟩

/-- C10: when the token sequence begins with one complete JSON value, the
entry point returns that value and silently drops all remaining tokens
with the iterator — trailing garbage is never an error. -/
theorem C10_trailing_tokens_ignored (s : String) (toks : List Token) (v : Value)
    (rest : List Token) (ht : tokenize s = .ok toks)
    (hp : parse_tokens (2 * toks.length + 1) toks = some (.ok v rest)) :
    parse s = some (.ok v) := by
  simp [parse, ht, hp]

/-- Witness for C10 at the input `"true false"`: the trailing `false`
token is ignored and the parse succeeds with `Boolean true`. -/
theorem C10_trailing_tokens_ignored_witness :
    tokenize "true false" = .ok [Token.True, Token.False] ∧
    parse_tokens 5 [Token.True, Token.False] = some (.ok (.Boolean true) [Token.False]) ∧
    parse "true false" = some (.ok (.Boolean true)) := by
  have ht : tokenize "true false" = .ok [Token.True, Token.False] := by
    simp [tokenize, tokenizeLoop, make_token, isAsciiWs, is_number, tokenize_true,
      tokenize_false, matchChars, Except.map]
  have hp : parse_tokens 5 [Token.True, Token.False] =
      some (.ok (.Boolean true) [Token.False]) := by
    simp [parse_tokens]
  exact ⟨ht, hp, C10_trailing_tokens_ignored "true false" [Token.True, Token.False]
    (.Boolean true) [Token.False] ht hp⟩

/-- C1 counterexample: on the input `","` the entry point panics (the
`_ => todo!()` arm of `parse_tokens`) instead of returning `Ok` or `Err`,
so "for every input string parse returns either Ok or Err" is false. -/
theorem C1_counterexample : parse "," = some ParseOutcome.panic := by
  simp [parse, tokenize, tokenizeLoop, make_token, isAsciiWs, is_number, parse_tokens]

/-- C1 (amended): the entry point always terminates with an outcome;
tokenize-stage errors and parse-stage errors are wrapped into the unified
`ParseError` preserving the stage; but an empty token sequence and a token
stream that ends mid-array make it panic (`unwrap`/`todo!()`) rather than
return a structured error. -/
theorem C1_stage_errors :
    (∀ s, (parse s).isSome) ∧
    (∀ s e, tokenize s = .error e → parse s = some (.err (.TokenizeError e))) ∧
    (∀ s toks e, tokenize s = .ok toks →
      parse_tokens (2 * toks.length + 1) toks = some (.fail e) →
      parse s = some (.err (.ParseError e))) ∧
    parse "" = some .panic ∧
    parse "[1" = some .panic := by
  refine ⟨parse_total, ?_, ?_, ?_, ?_⟩
  · intro s e h
    simp [parse, h]
  · intro s toks e ht hp
    simp [parse, ht, hp]
  · simp [parse, tokenize, tokenizeLoop, parse_tokens]
  · simp [parse, tokenize, tokenizeLoop, make_token, isAsciiWs, is_number, tokenize_float,
      float_start, floatLoop, parse_f64, parseDec, parseExpPart, takeDigits, digitsVal,
      parse_tokens, parse_array_loop, parse_array_step]

/-- Witness for C1 (amended): a tokenize-stage failure (`"tru"`) and a
parse-stage failure (`"{1}"`) both surface as the correctly tagged
`ParseError`. -/
theorem C1_stage_errors_witness :
    parse "tru" = some (.err (.TokenizeError .UnfinishedLiteralValue)) ∧
    parse "{1}" = some (.err (.ParseError .ExpectedProperty)) := by
  constructor
  · exact C1_stage_errors.2.1 "tru" .UnfinishedLiteralValue
      (by simp [tokenize, tokenizeLoop, make_token, isAsciiWs, is_number, tokenize_true,
        matchChars, Except.map])
  · exact C1_stage_errors.2.2.1 "{1}" [Token.LeftBrace, Token.Number ⟨1, 0⟩, Token.RightBrace]
      .ExpectedProperty
      (by simp [tokenize, tokenizeLoop, make_token, isAsciiWs, is_number, tokenize_float,
        float_start, floatLoop, parse_f64, parseDec, parseExpPart, takeDigits, digitsVal])
      (by simp [parse_tokens, parse_objects_loop])

/-- C2: evaluating `unescape_string` on the armed escape `\f` yields
U+0012 (DEVICE CONTROL TWO), not U+000C (FORM FEED): the Rust source
writes `'\u{12}'`, whose `12` is hexadecimal, while the neighbouring
comment (and the claim) intend form-feed.  The other armed escapes behave
exactly as the claim states (shown first); only `\f` diverges. -/
theorem C2_formfeed_divergence :
    unescape_string "\\\"" = .ok "\"" ∧
    unescape_string "\\\\" = .ok "\\" ∧
    unescape_string "\\b" = .ok (String.mk [Char.ofNat 0x8]) ∧
    unescape_string "\\n" = .ok "\n" ∧
    unescape_string "\\r" = .ok "\r" ∧
    unescape_string "\\t" = .ok "\t" ∧
    unescape_string "\\q" = .ok "q" ∧
    unescape_string "\\f" = .ok (String.mk [Char.ofNat 0x12]) ∧
    Char.ofNat 0x12 ≠ Char.ofNat 0xC := by
  refine ⟨?_, ?_, ?_, ?_, ?_, ?_, ?_, ?_, ?_⟩ <;>
    first
      | decide
      | simp [unescape_string, unescapeLoop, Except.map]

/-- C3 counterexample: the input `"true "` — a valid token followed only
by trailing ASCII whitespace — does not tokenize successfully: it fails
with `UnexpectedEof`, because the outer `while let` hands the trailing
space to `make_token`, whose whitespace-skip exhausts the input. -/
theorem C3_counterexample : tokenize "true " = .error .UnexpectedEof := by
  simp [tokenize, tokenizeLoop, make_token, isAsciiWs, is_number, tokenize_true, matchChars,
    Except.map]

/-- C3 (amended): empty input tokenizes to no tokens, and leading/interior
whitespace before a token is skipped; but whenever `make_token` starts on
whitespace and whitespace-skipping exhausts the input — in particular for
any trailing whitespace after the final token — the result is
`UnexpectedEof`.  `UnexpectedEof` is produced nowhere else. -/
theorem C3_trailing_whitespace :
    tokenize "" = .ok [] ∧
    (∀ c cs, isAsciiWs c = true → (∀ x ∈ cs, isAsciiWs x = true) →
      make_token cs c = .error .UnexpectedEof) ∧
    tokenize " true" = .ok [Token.True] ∧
    tokenize "1 " = .error .UnexpectedEof := by
  refine ⟨by simp [tokenize, tokenizeLoop], ?_, ?_, ?_⟩
  · intro c cs hc hcs
    induction cs generalizing c with
    | nil => rw [make_token_eq, if_pos hc]
    | cons c2 cs2 ih =>
      rw [make_token_eq, if_pos hc]
      exact ih c2 (hcs c2 (by simp)) (fun x hx => hcs x (by simp [hx]))
  · simp [tokenize, tokenizeLoop, make_token, isAsciiWs, is_number, tokenize_true, matchChars,
      Except.map]
  · simp [tokenize, tokenizeLoop, make_token, isAsciiWs, is_number, tokenize_float, float_start,
      floatLoop, parse_f64, parseDec, parseExpPart, takeDigits, digitsVal]

/-- Witness for C3 (amended): a make_token call starting on a space with
only a tab left fails with `UnexpectedEof`. -/
theorem C3_trailing_whitespace_witness :
    make_token ['\t'] ' ' = .error .UnexpectedEof :=
  C3_trailing_whitespace.2.1 ' ' ['\t'] (by decide) (by intro x hx; simp at hx; simp [hx, isAsciiWs])

/-- Spec-side predicate for C8: the raw characters after the opening quote
contain an unescaped closing `"` (tracking the same escaping flag as
`stringLoop`). -/
def hasClose (esc : Bool) : List Char → Bool
  | [] => false
  | c :: rest =>
    if c = '"' ∧ esc = false then true
    else if c = '\\' then hasClose (!esc) rest
    else hasClose false rest

/-- String lexing with no unescaped closing quote in the remaining input
always fails with exactly `UnclosedQuotes`. -/
theorem stringLoop_unclosed (cs : List Char) : ∀ (acc : List Char) (esc : Bool),
    hasClose esc cs = false → stringLoop acc esc cs = .error .UnclosedQuotes := by
  induction cs with
  | nil => intro acc esc _; rfl
  | cons c rest ih =>
    intro acc esc h
    simp only [hasClose] at h
    split at h
    · simp at h
    · split at h
      case _ hq hb =>
        simp only [stringLoop, if_neg hq, if_pos hb]
        exact ih _ _ h
      case _ hq hb =>
        simp only [stringLoop, if_neg hq, if_neg hb]
        exact ih _ _ h

/-- `matchChars` on input that does not start with the expected suffix
always fails with exactly `UnfinishedLiteralValue` (covers both a
truncated and a mismatched literal). -/
theorem matchChars_not_prefix (es : List Char) : ∀ (l : List Char),
    (∀ r, l ≠ es ++ r) → matchChars es l = .error .UnfinishedLiteralValue := by
  induction es with
  | nil => intro l h; exact absurd (show l = [] ++ l by simp) (h l)
  | cons e es ih =>
    intro l h
    match l with
    | [] => rfl
    | c :: rest =>
      simp only [matchChars]
      split
      case _ hc =>
        subst hc
        exact ih rest (fun r hr => h r (by simp [hr]))
      · rfl

/-- A failing `make_token` makes the whole tokenize loop fail with the
same error. -/
theorem tokenizeLoop_cons_error (l : List Char) (c : Char) (e : TokenizeError)
    (h : make_token l c = .error e) : tokenizeLoop (c :: l) = .error e := by
  rw [tokenizeLoop.eq_def]
  split
  · rename_i hmt
    exact absurd hmt (by simp)
  · rename_i t0 rest0 hmt
    injection hmt with h1 h2
    subst h1
    subst h2
    split
    · rename_i e2 hmt2
      rw [h] at hmt2
      cases hmt2
      rfl
    · rename_i t2 rest2 hmt2
      rw [h] at hmt2
      simp at hmt2

/-- A `make_token` that produces a token and exhausts the input makes the
whole tokenize loop produce exactly that token. -/
theorem tokenizeLoop_cons_ok (l : List Char) (c : Char) (t : Token)
    (h : make_token l c = .ok (t, [])) : tokenizeLoop (c :: l) = .ok [t] := by
  rw [tokenizeLoop.eq_def]
  split
  · rename_i hmt
    exact absurd hmt (by simp)
  · rename_i t0 rest0 hmt
    injection hmt with h1 h2
    subst h1
    subst h2
    split
    · rename_i e hmt2
      rw [h] at hmt2
      simp at hmt2
    · rename_i t2 rest2 hmt2
      rw [h] at hmt2
      simp only [Except.ok.injEq, Prod.mk.injEq] at hmt2
      obtain ⟨h1, h2⟩ := hmt2
      subst h1
      subst h2
      simp [tokenizeLoop]

/-- C8: a string literal that reaches end-of-input before an unescaped
closing quote fails with `UnclosedQuotes` (concretely for `"abc` and in
general for any unclosed payload), and a truncated or mismatched literal
keyword fails with `UnfinishedLiteralValue` (concretely for `tru` and in
general for any input `t...` not continuing with `rue`). -/
theorem C8_unterminated :
    tokenize "\"abc" = .error .UnclosedQuotes ∧
    tokenize "tru" = .error .UnfinishedLiteralValue ∧
    (∀ cs, hasClose false cs = false →
      tokenize (String.mk ('"' :: cs)) = .error .UnclosedQuotes) ∧
    (∀ rest, (∀ r, rest ≠ 'r' :: 'u' :: 'e' :: r) →
      tokenize (String.mk ('t' :: rest)) = .error .UnfinishedLiteralValue) := by
  refine ⟨?_, ?_, ?_, ?_⟩
  · simp [tokenize, tokenizeLoop, make_token, isAsciiWs, is_number, tokenize_string, stringLoop]
  · simp [tokenize, tokenizeLoop, make_token, isAsciiWs, is_number, tokenize_true, matchChars,
      Except.map]
  · intro cs h
    have hmk : make_token cs '"' = .error .UnclosedQuotes := by
      rw [make_token_eq]
      simp [isAsciiWs, is_number, tokenize_string, stringLoop_unclosed cs [] false h]
    exact tokenizeLoop_cons_error cs '"' _ hmk
  · intro rest h
    have hmc : matchChars ['r', 'u', 'e'] rest = .error .UnfinishedLiteralValue :=
      matchChars_not_prefix ['r', 'u', 'e'] rest (by
        intro r hr
        exact h r (by simpa using hr))
    have hmk : make_token rest 't' = .error .UnfinishedLiteralValue := by
      rw [make_token_eq]
      simp [isAsciiWs, is_number, tokenize_true, hmc, Except.map]
    exact tokenizeLoop_cons_error rest 't' _ hmk

/-- Witness for C8's general clauses: the unclosed payload `ab` and the
mismatched keyword `trx`. -/
theorem C8_unterminated_witness :
    tokenize (String.mk ['"', 'a', 'b']) = .error .UnclosedQuotes ∧
    tokenize (String.mk ['t', 'r', 'x']) = .error .UnfinishedLiteralValue := by
  constructor
  · exact C8_unterminated.2.2.1 ['a', 'b'] (by decide)
  · exact C8_unterminated.2.2.2 ['r', 'x'] (by intro r hr; simp at hr)

/-- A hexadecimal digit's value is at most 15. -/
theorem hexDigit_le (c : Char) (d : Nat) (h : hexDigit? c = some d) : d ≤ 15 := by
  unfold hexDigit? at h
  split at h
  · cases h; omega
  · split at h
    · cases h; omega
    · split at h
      · cases h; omega
      · cases h

/-- C7: an armed `\u` reads exactly four characters: with fewer than four
(all hexadecimal) left it is `UnfinishedEscape`; any non-hexadecimal
character among the (up to) four read is `InvalidHexValue`; four
hexadecimal digits are combined big-endian into a 16-bit value, decoded
independently of any adjacent escape: a surrogate value is
`InvalidCodePointValue`, a scalar value is appended and scanning resumes
unarmed on the rest.  Concretely, the surrogate pair `\uD83D\uDE00` is
rejected rather than combined. -/
theorem C7_unicode_escape :
    (∀ acc (l : List Char), l.length < 4 → (∀ c ∈ l, (hexDigit? c).isSome) →
      unescapeLoop acc false ('\\' :: 'u' :: l) = .error .UnfinishedEscape) ∧
    (∀ acc (l : List Char), l.length < 4 → (∃ c ∈ l, hexDigit? c = none) →
      unescapeLoop acc false ('\\' :: 'u' :: l) = .error .InvalidHexValue) ∧
    (∀ acc c1 c2 c3 c4 r, (hexDigit? c1 = none ∨ hexDigit? c2 = none ∨ hexDigit? c3 = none ∨
        hexDigit? c4 = none) →
      unescapeLoop acc false ('\\' :: 'u' :: c1 :: c2 :: c3 :: c4 :: r) =
        .error .InvalidHexValue) ∧
    (∀ acc c1 c2 c3 c4 r d1 d2 d3 d4, hexDigit? c1 = some d1 → hexDigit? c2 = some d2 →
      hexDigit? c3 = some d3 → hexDigit? c4 = some d4 →
      0xD800 ≤ 4096 * d1 + 256 * d2 + 16 * d3 + d4 →
      4096 * d1 + 256 * d2 + 16 * d3 + d4 < 0xE000 →
      unescapeLoop acc false ('\\' :: 'u' :: c1 :: c2 :: c3 :: c4 :: r) =
        .error .InvalidCodePointValue) ∧
    (∀ acc c1 c2 c3 c4 r d1 d2 d3 d4, hexDigit? c1 = some d1 → hexDigit? c2 = some d2 →
      hexDigit? c3 = some d3 → hexDigit? c4 = some d4 →
      (4096 * d1 + 256 * d2 + 16 * d3 + d4 < 0xD800 ∨
        0xE000 ≤ 4096 * d1 + 256 * d2 + 16 * d3 + d4) →
      unescapeLoop acc false ('\\' :: 'u' :: c1 :: c2 :: c3 :: c4 :: r) =
        unescapeLoop (acc ++ [Char.ofNat (4096 * d1 + 256 * d2 + 16 * d3 + d4)]) false r) ∧
    unescape_string "\\uD83D\\uDE00" = .error .InvalidCodePointValue := by
  refine ⟨?_, ?_, ?_, ?_, ?_, ?_⟩
  · intro acc l hlen hhex
    match l with
    | [] => simp [unescapeLoop, shortHexErr]
    | [a] =>
      have ha := hhex a (by simp)
      simp [unescapeLoop, shortHexErr, ha]
    | [a, b] =>
      have ha := hhex a (by simp)
      have hb := hhex b (by simp)
      simp [unescapeLoop, shortHexErr, ha, hb]
    | [a, b, c] =>
      have ha := hhex a (by simp)
      have hb := hhex b (by simp)
      have hc := hhex c (by simp)
      simp [unescapeLoop, shortHexErr, ha, hb, hc]
    | a :: b :: c :: d :: r => simp only [List.length_cons] at hlen; omega
  · intro acc l hlen hex
    obtain ⟨c0, hc0, hnone⟩ := hex
    match l with
    | [] => simp at hc0
    | [a] =>
      simp only [List.mem_singleton] at hc0
      subst hc0
      simp [unescapeLoop, shortHexErr, hnone]
    | [a, b] =>
      simp only [List.mem_cons, List.mem_singleton, List.not_mem_nil, or_false] at hc0
      rcases hc0 with rfl | rfl <;> simp [unescapeLoop, shortHexErr, hnone]
    | [a, b, c] =>
      simp only [List.mem_cons, List.mem_singleton, List.not_mem_nil, or_false] at hc0
      rcases hc0 with rfl | rfl | rfl <;> simp [unescapeLoop, shortHexErr, hnone]
    | a :: b :: c :: d :: r => simp only [List.length_cons] at hlen; omega
  · intro acc c1 c2 c3 c4 r hnh
    cases hh1 : hexDigit? c1 <;> cases hh2 : hexDigit? c2 <;> cases hh3 : hexDigit? c3 <;>
        cases hh4 : hexDigit? c4 <;>
      simp_all [unescapeLoop]
  · intro acc c1 c2 c3 c4 r d1 d2 d3 d4 h1 h2 h3 h4 hlo hhi
    have hn : ¬(4096 * d1 + 256 * d2 + 16 * d3 + d4 < 0xD800 ∨
        (0xE000 ≤ 4096 * d1 + 256 * d2 + 16 * d3 + d4 ∧
          4096 * d1 + 256 * d2 + 16 * d3 + d4 < 0x110000)) := by omega
    simp [unescapeLoop, h1, h2, h3, h4, charFromU32, hn]
  · intro acc c1 c2 c3 c4 r d1 d2 d3 d4 h1 h2 h3 h4 hval
    have b1 := hexDigit_le _ _ h1
    have b2 := hexDigit_le _ _ h2
    have b3 := hexDigit_le _ _ h3
    have b4 := hexDigit_le _ _ h4
    have hp : (4096 * d1 + 256 * d2 + 16 * d3 + d4 < 0xD800 ∨
        (0xE000 ≤ 4096 * d1 + 256 * d2 + 16 * d3 + d4 ∧
          4096 * d1 + 256 * d2 + 16 * d3 + d4 < 0x110000)) := by omega
    simp [unescapeLoop, h1, h2, h3, h4, charFromU32, hp]
  · simp [unescape_string, unescapeLoop, hexDigit?, charFromU32, shortHexErr, Except.map]

/-- Witness for C7: each clause at a concrete escape (`\uA`, `\uZ`,
`\uG000`, the unpaired surrogate `\uD800`, and `\u0041` = `A`). -/
theorem C7_unicode_escape_witness :
    unescapeLoop [] false ['\\', 'u', 'A'] = .error .UnfinishedEscape ∧
    unescapeLoop [] false ['\\', 'u', 'Z'] = .error .InvalidHexValue ∧
    unescapeLoop [] false ['\\', 'u', 'G', '0', '0', '0'] = .error .InvalidHexValue ∧
    unescapeLoop [] false ['\\', 'u', 'D', '8', '0', '0'] = .error .InvalidCodePointValue ∧
    unescapeLoop [] false ['\\', 'u', '0', '0', '4', '1'] =
      unescapeLoop ([] ++ [Char.ofNat 65]) false [] := by
  refine ⟨C7_unicode_escape.1 [] ['A'] (by decide) (by decide),
    C7_unicode_escape.2.1 [] ['Z'] (by decide) ⟨'Z', by simp, by decide⟩,
    C7_unicode_escape.2.2.1 [] 'G' '0' '0' '0' [] (Or.inl (by decide)),
    C7_unicode_escape.2.2.2.1 [] 'D' '8' '0' '0' [] 13 8 0 0 (by decide) (by decide) (by decide)
      (by decide) (by decide) (by decide),
    ?_⟩
  have := C7_unicode_escape.2.2.2.2.1 [] '0' '0' '4' '1' [] 0 0 4 1 (by decide) (by decide)
    (by decide) (by decide) (Or.inl (by decide))
  simpa using this

/-- C9: in array parsing, an immediately peeked `]` yields the elements
accumulated so far (an empty `Value.Array` when none); any other token
starts an iteration body; and after a successfully parsed element the
next token must be `,` (the loop continues) or `]` (the array terminates
with the elements), while any other token yields `ExpectedComma`.
Concretely, `"[]"` parses to an empty array. -/
theorem C9_array_comma_or_close :
    (∀ fuel acc rest, parse_array_loop (fuel + 1) acc (Token.RightBracket :: rest) =
      some (.ok (.Array acc) rest)) ∧
    (∀ fuel acc t rest, t ≠ Token.RightBracket →
      parse_array_loop (fuel + 1) acc (t :: rest) = parse_array_step fuel acc (t :: rest)) ∧
    (∀ fuel acc toks v rest2, parse_tokens fuel toks = some (.ok v rest2) →
      (rest2.head? = some Token.Comma →
        parse_array_step fuel acc toks = parse_array_loop fuel (acc ++ [v]) rest2.tail) ∧
      (rest2.head? = some Token.RightBracket →
        parse_array_step fuel acc toks = some (.ok (.Array (acc ++ [v])) rest2.tail)) ∧
      (∀ t, rest2.head? = some t → t ≠ Token.Comma → t ≠ Token.RightBracket →
        parse_array_step fuel acc toks = some (.fail .ExpectedComma))) ∧
    parse "[]" = some (.ok (.Array [])) := by
  refine ⟨?_, ?_, ?_, ?_⟩
  · intro fuel acc rest
    simp [parse_array_loop]
  · intro fuel acc t rest hne
    cases t <;> first | exact absurd rfl hne | simp [parse_array_loop]
  · intro fuel acc toks v rest2 hpt
    refine ⟨?_, ?_, ?_⟩
    · intro hh
      rcases rest2 with _ | ⟨t0, tl⟩
      · simp at hh
      · simp only [List.head?_cons, Option.some.injEq] at hh
        subst hh
        simp [parse_array_step, hpt]
    · intro hh
      rcases rest2 with _ | ⟨t0, tl⟩
      · simp at hh
      · simp only [List.head?_cons, Option.some.injEq] at hh
        subst hh
        simp [parse_array_step, hpt]
    · intro t hh hnc hnrb
      rcases rest2 with _ | ⟨t0, tl⟩
      · simp at hh
      · simp only [List.head?_cons, Option.some.injEq] at hh
        subst hh
        cases t0
        case Comma => exact absurd rfl hnc
        case RightBracket => exact absurd rfl hnrb
        all_goals simp [parse_array_step, hpt]
  · simp [parse, tokenize, tokenizeLoop, make_token, isAsciiWs, is_number, parse_tokens,
      parse_array_loop]

/-- Witness for C9: after a parsed `null` element, a following `:` is
`ExpectedComma`, a `,` continues the loop, and a `]` closes the array. -/
theorem C9_array_comma_or_close_witness :
    parse_array_loop 4 [] [Token.Null, Token.Colon] =
      parse_array_step 3 [] [Token.Null, Token.Colon] ∧
    parse_array_step 3 [] [Token.Null, Token.Colon] = some (.fail .ExpectedComma) ∧
    parse_array_step 3 [] [Token.Null, Token.Comma, Token.RightBracket] =
      parse_array_loop 3 [Value.Null] [Token.RightBracket] ∧
    parse_array_step 3 [] [Token.Null, Token.RightBracket] =
      some (.ok (.Array [Value.Null]) []) := by
  have hpt1 : parse_tokens 3 [Token.Null, Token.Colon] = some (.ok .Null [Token.Colon]) := by
    simp [parse_tokens]
  have hpt2 : parse_tokens 3 [Token.Null, Token.Comma, Token.RightBracket] =
      some (.ok .Null [Token.Comma, Token.RightBracket]) := by
    simp [parse_tokens]
  have hpt3 : parse_tokens 3 [Token.Null, Token.RightBracket] =
      some (.ok .Null [Token.RightBracket]) := by
    simp [parse_tokens]
  refine ⟨C9_array_comma_or_close.2.1 3 [] Token.Null [Token.Colon] (by decide),
    (C9_array_comma_or_close.2.2.1 3 [] _ _ _ hpt1).2.2 Token.Colon (by simp) (by decide)
      (by decide), ?_, ?_⟩
  · have := (C9_array_comma_or_close.2.2.1 3 [] _ _ _ hpt2).1 (by simp)
    simpa using this
  · have := (C9_array_comma_or_close.2.2.1 3 [] _ _ _ hpt3).2.1 (by simp)
    simpa using this

/-! ## C4: the shape and meaning of a numeric scalar literal.
`numLit` builds the literal text from its parts; `litMantissa` and
`litExponent` are the spec-side exact value of that literal (the value
`str::parse::<f64>` denotes, see `parse_f64`). -/

/-- Sign part of a numeric literal. -/
def sgnLit (neg : Bool) : List Char := if neg then ['-'] else []

/-- Fraction part of a numeric literal: nothing, or `.` then its digits. -/
def fpLit : Option (List Char) → List Char
  | none => []
  | some f => '.' :: f

/-- Exponent part of a numeric literal: nothing, or a marker (`e`/`E`),
an optional sign character, and the exponent digits. -/
def exLit : Option (Char × Option Char × List Char) → List Char
  | none => []
  | some (m, sg, ed) => m :: ((match sg with | none => [] | some s => [s]) ++ ed)

/-- The full text of a numeric scalar literal. -/
def numLit (neg : Bool) (ip : List Char) (fp : Option (List Char))
    (ex : Option (Char × Option Char × List Char)) : List Char :=
  sgnLit neg ++ ip ++ fpLit fp ++ exLit ex

/-- Spec-side mantissa of the literal: its integer and fraction digits
read as one integer, negated under a leading `-`. -/
def litMantissa (neg : Bool) (ip : List Char) (fp : Option (List Char)) : Int :=
  if neg then -(digitsVal (ip ++ fp.getD []) : Int) else (digitsVal (ip ++ fp.getD []) : Int)

/-- Spec-side signed value of the exponent part (0 when absent). -/
def exVal : Option (Char × Option Char × List Char) → Int
  | none => 0
  | some (_, sg, ed) =>
    if sg = some '-' then -(digitsVal ed : Int) else (digitsVal ed : Int)

/-- Spec-side power-of-ten exponent of the literal: the (signed) exponent
digits minus the number of fraction digits. -/
def litExponent (fp : Option (List Char))
    (ex : Option (Char × Option Char × List Char)) : Int :=
  exVal ex - ((fp.getD []).length : Int)

/-- An ASCII digit is not ASCII whitespace. -/
theorem digit_not_ws (c : Char) (h : c.isDigit = true) : isAsciiWs c = false := by
  by_contra hws
  rw [Bool.not_eq_false] at hws
  simp only [isAsciiWs, Bool.or_eq_true, decide_eq_true_eq] at hws
  rcases hws with ((((rfl | rfl) | rfl) | rfl) | rfl) <;> exact absurd h (by decide)

/-- An ASCII digit is none of the number grammar's marker characters. -/
theorem digit_ne_marks (c : Char) (h : c.isDigit = true) :
    c ≠ '-' ∧ c ≠ '+' ∧ c ≠ '.' ∧ c ≠ 'e' ∧ c ≠ 'E' := by
  refine ⟨?_, ?_, ?_, ?_, ?_⟩ <;> (intro hc; subst hc; exact absurd h (by decide))

/-- `takeDigits` splits off exactly a digit prefix when the remainder
does not start with a digit. -/
theorem takeDigits_append (ds : List Char) (r : List Char)
    (hd : ∀ c ∈ ds, c.isDigit = true)
    (hr : ∀ c, r.head? = some c → c.isDigit = false) :
    takeDigits (ds ++ r) = (ds, r) := by
  induction ds with
  | nil =>
    match r with
    | [] => rfl
    | c :: rest =>
      simp only [List.nil_append, takeDigits, hr c rfl, Bool.false_eq_true, if_false]
  | cons d ds ih =>
    have hdd := hd d (by simp)
    simp only [List.cons_append, takeDigits, hdd, if_true, List.append_eq]
    rw [ih (fun c hc => hd c (by simp [hc]))]

/-- The number-accumulation loop absorbs a run of digits. -/
theorem floatLoop_digits (ds : List Char) : ∀ (acc rest : List Char) (hdec hexp : Bool),
    (∀ c ∈ ds, c.isDigit = true) →
    floatLoop acc (ds ++ rest) hdec hexp = floatLoop (acc ++ ds) rest hdec hexp := by
  induction ds with
  | nil => intro acc rest hdec hexp _; simp
  | cons d ds ih =>
    intro acc rest hdec hexp h
    have hdd := h d (by simp)
    rw [List.cons_append, floatLoop.eq_def]
    simp only [if_pos hdd]
    rw [ih (acc ++ [d]) rest hdec hexp (fun c hc => h c (by simp [hc]))]
    simp

/-- The number-accumulation loop stops at exhausted input. -/
theorem floatLoop_nil (acc : List Char) (hdec hexp : Bool) :
    floatLoop acc [] hdec hexp = .ok (acc, []) := rfl

/-- The number-accumulation loop consumes a first `.`. -/
theorem floatLoop_dot (acc rest : List Char) :
    floatLoop acc ('.' :: rest) false false = floatLoop (acc ++ ['.']) rest true false := by
  rw [floatLoop.eq_def]
  simp only [if_neg (show ¬('.'.isDigit = true) by decide)]
  simp

/-- The number-accumulation loop consumes an exponent marker directly
followed by a digit. -/
theorem floatLoop_exp_nosign (acc : List Char) (hdec : Bool) (m d : Char) (rest : List Char)
    (hm : m = 'e' ∨ m = 'E') (hd2 : d.isDigit = true) :
    floatLoop acc (m :: d :: rest) hdec false = floatLoop (acc ++ [m]) (d :: rest) hdec true := by
  have hmd : m.isDigit = false := by rcases hm with rfl | rfl <;> decide
  have hds : ¬(d = '+' ∨ d = '-') := by
    rintro (rfl | rfl) <;> exact absurd hd2 (by decide)
  rw [floatLoop.eq_def]
  simp only [if_neg (show ¬(m.isDigit = true) by simp [hmd])]
  simp [hm, hds, hd2]

/-- The number-accumulation loop consumes an exponent marker, a sign and
a following digit. -/
theorem floatLoop_exp_sign (acc : List Char) (hdec : Bool) (m s d : Char) (rest : List Char)
    (hm : m = 'e' ∨ m = 'E') (hs : s = '+' ∨ s = '-') (hd2 : d.isDigit = true) :
    floatLoop acc (m :: s :: d :: rest) hdec false =
      floatLoop (acc ++ [m, s]) (d :: rest) hdec true := by
  have hmd : m.isDigit = false := by rcases hm with rfl | rfl <;> decide
  rw [floatLoop.eq_def]
  simp only [if_neg (show ¬(m.isDigit = true) by simp [hmd])]
  simp [hm, hs, hd2]

/-- The number-accumulation loop accepts a whole well-formed exponent
part and ends with the input exhausted. -/
theorem floatLoop_exp_tail (acc : List Char) (hdec : Bool)
    (ex : Option (Char × Option Char × List Char))
    (hex : ∀ m sg ed, ex = some (m, sg, ed) → (m = 'e' ∨ m = 'E') ∧
      (∀ s, sg = some s → s = '+' ∨ s = '-') ∧ ed ≠ [] ∧ ∀ c ∈ ed, c.isDigit = true) :
    floatLoop acc (exLit ex) hdec false = .ok (acc ++ exLit ex, []) := by
  match ex with
  | none => simp [exLit, floatLoop_nil]
  | some (m, sg, ed) =>
    obtain ⟨hm, hsg, hne, hdig⟩ := hex m sg ed rfl
    match sg with
    | none =>
      match ed, hne with
      | d :: ed2, _ =>
        have hstep := floatLoop_exp_nosign acc hdec m d ed2 hm (hdig d (by simp))
        have habs := floatLoop_digits (d :: ed2) (acc ++ [m]) [] hdec true hdig
        simp only [List.append_nil] at habs
        simp only [exLit, List.nil_append]
        rw [hstep, habs, floatLoop_nil]
        simp
    | some s =>
      have hs := hsg s rfl
      match ed, hne with
      | d :: ed2, _ =>
        have hstep := floatLoop_exp_sign acc hdec m s d ed2 hm hs (hdig d (by simp))
        have habs := floatLoop_digits (d :: ed2) (acc ++ [m, s]) [] hdec true hdig
        simp only [List.append_nil] at habs
        simp only [exLit, List.singleton_append]
        rw [hstep, habs, floatLoop_nil]
        simp

/-- The number-accumulation loop accepts a whole well-formed fraction
and exponent tail and ends with the input exhausted. -/
theorem floatLoop_tail (acc : List Char) (fp : Option (List Char))
    (ex : Option (Char × Option Char × List Char))
    (hfp : ∀ f, fp = some f → f ≠ [] ∧ ∀ c ∈ f, c.isDigit = true)
    (hex : ∀ m sg ed, ex = some (m, sg, ed) → (m = 'e' ∨ m = 'E') ∧
      (∀ s, sg = some s → s = '+' ∨ s = '-') ∧ ed ≠ [] ∧ ∀ c ∈ ed, c.isDigit = true) :
    floatLoop acc (fpLit fp ++ exLit ex) false false =
      .ok (acc ++ fpLit fp ++ exLit ex, []) := by
  match fp with
  | none => simpa [fpLit] using floatLoop_exp_tail acc false ex hex
  | some f =>
    obtain ⟨hne, hdig⟩ := hfp f rfl
    simp only [fpLit, List.cons_append]
    rw [floatLoop_dot, floatLoop_digits f (acc ++ ['.']) (exLit ex) true false hdig,
      floatLoop_exp_tail (acc ++ ['.'] ++ f) true ex hex]
    simp

/-- The exponent part never starts with a digit. -/
theorem exLit_head_not_digit (ex : Option (Char × Option Char × List Char))
    (hexm : ∀ m sg ed, ex = some (m, sg, ed) → m = 'e' ∨ m = 'E') :
    ∀ c, (exLit ex).head? = some c → c.isDigit = false := by
  intro c hc
  match ex with
  | none => simp [exLit] at hc
  | some (m, sg, ed) =>
    simp only [exLit, List.head?_cons, Option.some.injEq] at hc
    subst hc
    rcases hexm _ sg ed rfl with rfl | rfl <;> decide

/-- The fraction-and-exponent tail never starts with a digit. -/
theorem mid_head_not_digit (fp : Option (List Char))
    (ex : Option (Char × Option Char × List Char))
    (hexm : ∀ m sg ed, ex = some (m, sg, ed) → m = 'e' ∨ m = 'E') :
    ∀ c, (fpLit fp ++ exLit ex).head? = some c → c.isDigit = false := by
  intro c hc
  match fp with
  | some f =>
    simp only [fpLit, List.cons_append, List.head?_cons, Option.some.injEq] at hc
    subst hc
    decide
  | none =>
    simp only [fpLit, List.nil_append] at hc
    exact exLit_head_not_digit ex hexm c hc

/-- `is_some_and(is_ascii_digit)` of the tail's first character is false. -/
theorem mid_any_digit (fp : Option (List Char)) (ex : Option (Char × Option Char × List Char))
    (hexm : ∀ m sg ed, ex = some (m, sg, ed) → m = 'e' ∨ m = 'E') :
    (fpLit fp ++ exLit ex).head?.any Char.isDigit = false := by
  match hh : (fpLit fp ++ exLit ex).head? with
  | none => rfl
  | some c => simp [Option.any, mid_head_not_digit fp ex hexm c hh]

/-- `parseExpPart` on a well-formed exponent part produces the signed
exponent value minus the fraction length. -/
theorem parseExpPart_exLit (mant fplen : Nat) (ex : Option (Char × Option Char × List Char))
    (hex : ∀ m sg ed, ex = some (m, sg, ed) → (m = 'e' ∨ m = 'E') ∧
      (∀ s, sg = some s → s = '+' ∨ s = '-') ∧ ed ≠ [] ∧ ∀ c ∈ ed, c.isDigit = true) :
    parseExpPart mant fplen (exLit ex) =
      some ⟨(mant : Int), exVal ex - (fplen : Int)⟩ := by
  match ex with
  | none =>
    simp only [exLit, parseExpPart, exVal, Option.some.injEq, JNum.mk.injEq]
    constructor
    · trivial
    · omega
  | some (m, sg, ed) =>
    obtain ⟨hm, hsg, hne, hdig⟩ := hex m sg ed rfl
    have hall : takeDigits ed = (ed, []) := by
      have := takeDigits_append ed [] hdig (by intro c hc; simp at hc)
      simpa using this
    have hedE : ed.isEmpty = false := by
      cases ed with
      | nil => exact absurd rfl hne
      | cons _ _ => rfl
    match sg with
    | some s =>
      rcases hsg s rfl with rfl | rfl
      · simp only [exLit, List.singleton_append, parseExpPart, if_pos hm]
        simp [hall, hedE, exVal]
      · simp only [exLit, List.singleton_append, parseExpPart, if_pos hm]
        simp [hall, hedE, exVal]
    | none =>
      match ed, hne with
      | d :: ed2, _ =>
        have hd := hdig d (by simp)
        obtain ⟨hdm, hdp, _, _, _⟩ := digit_ne_marks d hd
        simp only [exLit, List.nil_append, parseExpPart, if_pos hm]
        rw [if_neg hdm, if_neg hdp]
        simp [hall, hedE, exVal]

/-- `parseDec` on a well-formed unsigned literal produces its digits'
value and the literal's power-of-ten exponent. -/
theorem parseDec_numLit (ip : List Char) (fp : Option (List Char))
    (ex : Option (Char × Option Char × List Char)) (hip : ip ≠ [])
    (hipd : ∀ c ∈ ip, c.isDigit = true)
    (hfp : ∀ f, fp = some f → f ≠ [] ∧ ∀ c ∈ f, c.isDigit = true)
    (hex : ∀ m sg ed, ex = some (m, sg, ed) → (m = 'e' ∨ m = 'E') ∧
      (∀ s, sg = some s → s = '+' ∨ s = '-') ∧ ed ≠ [] ∧ ∀ c ∈ ed, c.isDigit = true) :
    parseDec (ip ++ (fpLit fp ++ exLit ex)) =
      some ⟨(digitsVal (ip ++ fp.getD []) : Int), litExponent fp ex⟩ := by
  have hexm : ∀ m sg ed, ex = some (m, sg, ed) → m = 'e' ∨ m = 'E' :=
    fun m sg ed h => (hex m sg ed h).1
  have h1 : takeDigits (ip ++ (fpLit fp ++ exLit ex)) = (ip, fpLit fp ++ exLit ex) :=
    takeDigits_append ip _ hipd (mid_head_not_digit fp ex hexm)
  have hipE : ip.isEmpty = false := by
    cases ip with
    | nil => exact absurd rfl hip
    | cons _ _ => rfl
  unfold parseDec
  rw [h1]
  match fp with
  | some f =>
    obtain ⟨hfne, hfd⟩ := hfp f rfl
    have h2 : takeDigits (f ++ exLit ex) = (f, exLit ex) :=
      takeDigits_append f _ hfd (exLit_head_not_digit ex hexm)
    simp only [fpLit, List.cons_append]
    rw [if_pos trivial]
    simp only [h2]
    rw [if_neg (by simp [hipE])]
    rw [parseExpPart_exLit _ _ ex hex]
    simp [litExponent]
  | none =>
    match ex with
    | none =>
      simp only [fpLit, exLit, List.nil_append]
      rw [if_neg (by simp [hipE])]
      have hp := parseExpPart_exLit (digitsVal ip) 0 none (by simp)
      simp only [exLit] at hp
      rw [hp]
      simp only [litExponent, exVal, Option.getD_none, List.append_nil, List.length_nil,
        Option.some.injEq, JNum.mk.injEq]
    | some (m, sg, ed) =>
      have hm := hexm m sg ed rfl
      have hmdot : ¬(m = '.') := by rcases hm with rfl | rfl <;> decide
      simp only [fpLit, exLit, List.nil_append]
      rw [if_neg hmdot, if_neg (by simp [hipE])]
      have hp := parseExpPart_exLit (digitsVal ip) 0 (some (m, sg, ed)) hex
      simp only [exLit] at hp
      rw [hp]
      simp only [litExponent, Option.getD_none, List.append_nil, List.length_nil,
        Option.some.injEq, JNum.mk.injEq]

/-- `parse_f64` on a well-formed numeric literal produces exactly the
literal's mantissa and exponent. -/
theorem parse_f64_numLit (neg : Bool) (ip : List Char) (fp : Option (List Char))
    (ex : Option (Char × Option Char × List Char)) (hip : ip ≠ [])
    (hipd : ∀ c ∈ ip, c.isDigit = true)
    (hfp : ∀ f, fp = some f → f ≠ [] ∧ ∀ c ∈ f, c.isDigit = true)
    (hex : ∀ m sg ed, ex = some (m, sg, ed) → (m = 'e' ∨ m = 'E') ∧
      (∀ s, sg = some s → s = '+' ∨ s = '-') ∧ ed ≠ [] ∧ ∀ c ∈ ed, c.isDigit = true) :
    parse_f64 (numLit neg ip fp ex) =
      some ⟨litMantissa neg ip fp, litExponent fp ex⟩ := by
  have hdec := parseDec_numLit ip fp ex hip hipd hfp hex
  match ip, hip with
  | d :: ipt, _ =>
  have hd := hipd d (by simp)
  obtain ⟨hdm, hdp, _, _, _⟩ := digit_ne_marks d hd
  cases neg with
  | false =>
    have hlit : numLit false (d :: ipt) fp ex = d :: (ipt ++ (fpLit fp ++ exLit ex)) := by
      simp [numLit, sgnLit]
    rw [hlit]
    simp only [parse_f64]
    rw [if_neg hdm, if_neg hdp]
    have : (d :: (ipt ++ (fpLit fp ++ exLit ex))) = (d :: ipt) ++ (fpLit fp ++ exLit ex) := by
      simp
    rw [this, hdec]
    simp [litMantissa]
  | true =>
    have hlit : numLit true (d :: ipt) fp ex =
        '-' :: ((d :: ipt) ++ (fpLit fp ++ exLit ex)) := by
      simp [numLit, sgnLit]
    rw [hlit]
    simp only [parse_f64]
    rw [if_pos trivial, hdec]
    simp [litMantissa, Option.map]

/-- `tokenize_float` assembled from its three stages (helper for the
literal round-trip). -/
theorem tokenize_float_eval (ch : Char) (chars : List Char) (acc0 rest0 : List Char) (q : JNum)
    (hstart : float_start chars ch = .ok (acc0, rest0))
    (hloop : floatLoop acc0 rest0 false false = .ok (ch :: chars, []))
    (hpf : parse_f64 (ch :: chars) = some q) :
    tokenize_float chars ch = .ok (.Number q, []) := by
  unfold tokenize_float
  simp only [hstart, hloop, hpf]

/-- `make_token` on a number-starting character is `tokenize_float`
(helper for the literal round-trip). -/
theorem make_token_number (ch : Char) (chars : List Char) (q : JNum)
    (hws : isAsciiWs ch = false) (hnum : is_number ch = true)
    (htf : tokenize_float chars ch = .ok (.Number q, [])) :
    make_token chars ch = .ok (.Number q, []) := by
  rw [make_token_eq, hws, hnum]
  simpa using htf

/-- `tokenize` is the loop on the raw characters. -/
theorem tokenize_mk (l : List Char) : tokenize (String.mk l) = tokenizeLoop l := rfl

/-- Tokenizing a well-formed numeric literal yields exactly one `Number`
token carrying the literal's exact value. -/
theorem tokenize_numLit (neg : Bool) (ip : List Char) (fp : Option (List Char))
    (ex : Option (Char × Option Char × List Char)) (hip : ip ≠ [])
    (hipd : ∀ c ∈ ip, c.isDigit = true) (hlead : ip.head? = some '0' → ip = ['0'])
    (hfp : ∀ f, fp = some f → f ≠ [] ∧ ∀ c ∈ f, c.isDigit = true)
    (hex : ∀ m sg ed, ex = some (m, sg, ed) → (m = 'e' ∨ m = 'E') ∧
      (∀ s, sg = some s → s = '+' ∨ s = '-') ∧ ed ≠ [] ∧ ∀ c ∈ ed, c.isDigit = true) :
    tokenize (String.mk (numLit neg ip fp ex)) =
      .ok [Token.Number ⟨litMantissa neg ip fp, litExponent fp ex⟩] := by
  have hexm : ∀ m sg ed, ex = some (m, sg, ed) → m = 'e' ∨ m = 'E' :=
    fun m sg ed h => (hex m sg ed h).1
  have hmid := mid_any_digit fp ex hexm
  have hpf := parse_f64_numLit neg ip fp ex hip hipd hfp hex
  have htail := fun acc => floatLoop_tail acc fp ex hfp hex
  match ip, hip with
  | d :: ipt, _ =>
  have hd : d.isDigit = true := hipd d (by simp)
  obtain ⟨hdm, hdp, _, _, _⟩ := digit_ne_marks d hd
  cases neg with
  | true =>
    have hlit : numLit true (d :: ipt) fp ex =
        '-' :: ((d :: ipt) ++ (fpLit fp ++ exLit ex)) := by
      simp [numLit, sgnLit]
    rw [hlit] at hpf ⊢
    rw [tokenize_mk]
    by_cases hd0 : d = '0'
    · obtain rfl : ipt = [] := by
        have h := hlead (by simp [hd0])
        injection h with h1 h2
      subst hd0
      have hstart : float_start (['0'] ++ (fpLit fp ++ exLit ex)) '-' =
          .ok (['-', '0'], fpLit fp ++ exLit ex) := by
        simp [float_start]
        simpa using hmid
      have hloop : floatLoop ['-', '0'] (fpLit fp ++ exLit ex) false false =
          .ok ('-' :: (['0'] ++ (fpLit fp ++ exLit ex)), []) := by
        have := htail ['-', '0']
        simpa using this
      have htf := tokenize_float_eval '-' (['0'] ++ (fpLit fp ++ exLit ex)) ['-', '0']
        (fpLit fp ++ exLit ex) _ hstart hloop hpf
      have hmk := make_token_number '-' (['0'] ++ (fpLit fp ++ exLit ex)) _ (by decide)
        (by decide) htf
      exact tokenizeLoop_cons_ok _ _ _ hmk
    · have hstart : float_start ((d :: ipt) ++ (fpLit fp ++ exLit ex)) '-' =
          .ok (['-'], (d :: ipt) ++ (fpLit fp ++ exLit ex)) := by
        simp [float_start, hd0]
      have hloop : floatLoop ['-'] ((d :: ipt) ++ (fpLit fp ++ exLit ex)) false false =
          .ok ('-' :: ((d :: ipt) ++ (fpLit fp ++ exLit ex)), []) := by
        rw [floatLoop_digits (d :: ipt) ['-'] (fpLit fp ++ exLit ex) false false hipd]
        have := htail (['-'] ++ (d :: ipt))
        simpa using this
      have htf := tokenize_float_eval '-' ((d :: ipt) ++ (fpLit fp ++ exLit ex)) ['-']
        ((d :: ipt) ++ (fpLit fp ++ exLit ex)) _ hstart hloop hpf
      have hmk := make_token_number '-' ((d :: ipt) ++ (fpLit fp ++ exLit ex)) _ (by decide)
        (by decide) htf
      exact tokenizeLoop_cons_ok _ _ _ hmk
  | false =>
    have hws := digit_not_ws d hd
    have hnum : is_number d = true := by simp [is_number, hd]
    have hlit : numLit false (d :: ipt) fp ex = d :: (ipt ++ (fpLit fp ++ exLit ex)) := by
      simp [numLit, sgnLit]
    rw [hlit] at hpf ⊢
    rw [tokenize_mk]
    by_cases hd0 : d = '0'
    · obtain rfl : ipt = [] := by
        have h := hlead (by simp [hd0])
        injection h with h1 h2
      subst hd0
      have hstart : float_start (fpLit fp ++ exLit ex) '0' =
          .ok (['0'], fpLit fp ++ exLit ex) := by
        simp [float_start]
        simpa using hmid
      have hloop : floatLoop ['0'] (fpLit fp ++ exLit ex) false false =
          .ok ('0' :: (fpLit fp ++ exLit ex), []) := by
        have := htail ['0']
        simpa using this
      have hpf2 : parse_f64 ('0' :: (fpLit fp ++ exLit ex)) =
          some ⟨litMantissa false ['0'] fp, litExponent fp ex⟩ := by
        simpa using hpf
      have htf := tokenize_float_eval '0' (fpLit fp ++ exLit ex) ['0']
        (fpLit fp ++ exLit ex) _ hstart hloop hpf2
      have hmk := make_token_number '0' (fpLit fp ++ exLit ex) _ (by decide) (by decide) htf
      have := tokenizeLoop_cons_ok _ _ _ hmk
      simpa using this
    · have hstart : float_start (ipt ++ (fpLit fp ++ exLit ex)) d =
          .ok ([d], ipt ++ (fpLit fp ++ exLit ex)) := by
        unfold float_start
        rw [if_neg hdm, if_neg hd0]
      have hloop : floatLoop [d] (ipt ++ (fpLit fp ++ exLit ex)) false false =
          .ok (d :: (ipt ++ (fpLit fp ++ exLit ex)), []) := by
        rw [floatLoop_digits ipt [d] (fpLit fp ++ exLit ex) false false
          (fun c hc => hipd c (by simp [hc]))]
        have := htail ([d] ++ ipt)
        simpa using this
      have htf := tokenize_float_eval d (ipt ++ (fpLit fp ++ exLit ex)) [d]
        (ipt ++ (fpLit fp ++ exLit ex)) _ hstart hloop hpf
      have hmk := make_token_number d (ipt ++ (fpLit fp ++ exLit ex)) _ hws hnum htf
      exact tokenizeLoop_cons_ok _ _ _ hmk

/-- C4: tokenizing then parsing a literal JSON scalar yields exactly the
corresponding Value: `null`, `true`, `false` map to `Null`/`Boolean`, and
every well-formed numeric literal — an optional `-`, an integer part with
no redundant leading zero, an optional `.`-fraction, an optional
`e`/`E`-exponent with optional sign — maps to `Number` carrying the
literal's exact value (mantissa and power-of-ten exponent; `f64` is
modelled exactly, see `JNum`). -/
theorem C4_scalar_roundtrip :
    parse "null" = some (.ok .Null) ∧
    parse "true" = some (.ok (.Boolean true)) ∧
    parse "false" = some (.ok (.Boolean false)) ∧
    (∀ neg ip fp ex, ip ≠ [] → (∀ c ∈ ip, c.isDigit = true) →
      (ip.head? = some '0' → ip = ['0']) →
      (∀ f, fp = some f → f ≠ [] ∧ ∀ c ∈ f, c.isDigit = true) →
      (∀ m sg ed, ex = some (m, sg, ed) → (m = 'e' ∨ m = 'E') ∧
        (∀ s, sg = some s → s = '+' ∨ s = '-') ∧ ed ≠ [] ∧ ∀ c ∈ ed, c.isDigit = true) →
      parse (String.mk (numLit neg ip fp ex)) =
        some (.ok (.Number ⟨litMantissa neg ip fp, litExponent fp ex⟩))) := by
  refine ⟨?_, ?_, ?_, ?_⟩
  · simp [parse, tokenize, tokenizeLoop, make_token, isAsciiWs, is_number, tokenize_null,
      matchChars, Except.map, parse_tokens]
  · simp [parse, tokenize, tokenizeLoop, make_token, isAsciiWs, is_number, tokenize_true,
      matchChars, Except.map, parse_tokens]
  · simp [parse, tokenize, tokenizeLoop, make_token, isAsciiWs, is_number, tokenize_false,
      matchChars, Except.map, parse_tokens]
  · intro neg ip fp ex hip hipd hlead hfp hex
    have ht := tokenize_numLit neg ip fp ex hip hipd hlead hfp hex
    simp [parse, ht, parse_tokens]

/-- Witness for C4's numeric clause at the literal `-12.5e+1`, whose
exact value is `-125 × 10 ^ 0`. -/
theorem C4_scalar_roundtrip_witness :
    parse (String.mk ['-', '1', '2', '.', '5', 'e', '+', '1']) =
      some (.ok (.Number ⟨-125, 0⟩)) := by
  have h := C4_scalar_roundtrip.2.2.2 true ['1', '2'] (some ['5']) (some ('e', some '+', ['1']))
    (by decide) (by decide) (by decide)
    (by
      intro f hf
      injection hf with h1
      subst h1
      exact ⟨by decide, by decide⟩)
    (by
      intro m sg ed hms
      simp only [Option.some.injEq, Prod.mk.injEq] at hms
      obtain ⟨rfl, rfl, rfl⟩ := hms
      refine ⟨Or.inl rfl, ?_, by decide, by decide⟩
      intro s hs
      injection hs with h1
      exact Or.inl h1.symm)
  simpa [numLit, sgnLit, fpLit, exLit, litMantissa, litExponent, exVal, digitsVal] using h

end JsonRs

